import Mathlib

/-!
Shallow embedding of the brainfuck virtual machine from src/src/interpreter/mod.rs
(default build, without the optional debug feature).

Modelling conventions:
* u8 cell values and fold counters are Nat kept below 256; the fold counter
  increment in update_with is the u8 addition of the source and is therefore
  taken modulo 256 (release-mode wrapping; debug builds abort on that overflow).
* usize values are Nat; usize saturating_add clamps at USIZE_MAX and usize
  saturating_sub is Nat truncated subtraction, which saturates at zero exactly
  as the source does.
* Vec indexing that can panic (memory accesses out of bounds) is modelled by
  Option: a none result of execute stands for a Rust panic.
* The static error strings of the source are modelled by the closed enum CErr;
  each constructor corresponds to exactly one source string.
-/

/-- Compile-time failures of the source, one constructor per static message:
eof for the message produced when a byte is expected at end of input,
unexpectedChar for an unrecognized byte, unmatchedClose for an unmatched
closing bracket, unmatchedOpen for an unmatched opening bracket. -/
inductive CErr where
  | eof
  | unexpectedChar
  | unmatchedClose
  | unmatchedOpen
deriving DecidableEq, Repr

/-- The instruction set of interpreter/mod.rs. Counts are u8 values kept as
Nat below 256; jump targets are instruction indices (the u32 cast of the
source is value-preserving for every program that fits in memory). -/
inductive Instruction where
  | Add (n : Nat)
  | Sub (n : Nat)
  | MoveRight (n : Nat)
  | MoveLeft (n : Nat)
  | Output
  | Input
  | Jump (t : Nat)
  | JumpBack (t : Nat)
deriving DecidableEq, Repr

/-- Machine state of Interpreter: memory tape, cell position, program
counter, compiled instructions, pending input vector (pushed at the back,
popped from the back by the Input instruction). -/
structure Interpreter where
  memory : List Nat
  position : Nat
  pc : Nat
  instructions : List Instruction
  input : List Nat
deriving DecidableEq, Repr

/-- The Output enum of the source: a byte emitted, a request for input, or
the end of the program. -/
inductive Output where
  | Output (b : Nat)
  | Input
  | End
deriving DecidableEq, Repr

/-- Alias for the Output event type, usable inside the Instruction namespace
where the bare name Output would denote the Instruction.Output constructor. -/
abbrev OutputEvent := Output

/-- Decidable equality for Except results, used to evaluate compilation
outcomes in concrete scenarios. -/
instance {e a : Type} [DecidableEq e] [DecidableEq a] : DecidableEq (Except e a) := fun x y =>
  match x, y with
  | Except.ok v, Except.ok w =>
    if h : v = w then isTrue (by rw [h]) else isFalse (by simp [h])
  | Except.error v, Except.error w =>
    if h : v = w then isTrue (by rw [h]) else isFalse (by simp [h])
  | Except.ok _, Except.error _ => isFalse (by simp)
  | Except.error _, Except.ok _ => isFalse (by simp)

/-- Instruction::from_byte. -/
def Instruction.from_byte (c : Char) : Option Instruction :=
  match c with
  | '+' => some (Instruction.Add 1)
  | '-' => some (Instruction.Sub 1)
  | '>' => some (Instruction.MoveRight 1)
  | '<' => some (Instruction.MoveLeft 1)
  | '.' => some Instruction.Output
  | ',' => some Instruction.Input
  | '[' => some (Instruction.Jump 0)
  | ']' => some (Instruction.JumpBack 0)
  | _ => none

/-- Instruction::update_with. The source mutates self and returns a bool; we
return the bool together with the new instruction. The count increment is u8
addition, hence the modulus; saturating_sub on u8 is Nat subtraction. -/
def Instruction.update_with (i : Instruction) (c : Char) : Bool × Instruction :=
  match i, c with
  | Instruction.Add n, '+' => (true, Instruction.Add ((n + 1) % 256))
  | Instruction.Add n, '-' => (true, Instruction.Add (n - 1))
  | Instruction.Sub n, '-' => (true, Instruction.Sub ((n + 1) % 256))
  | Instruction.Sub n, '+' => (true, Instruction.Sub (n - 1))
  | Instruction.MoveRight n, '>' => (true, Instruction.MoveRight ((n + 1) % 256))
  | Instruction.MoveRight n, '<' => (true, Instruction.MoveRight (n - 1))
  | Instruction.MoveLeft n, '<' => (true, Instruction.MoveLeft ((n + 1) % 256))
  | Instruction.MoveLeft n, '>' => (true, Instruction.MoveLeft (n - 1))
  | _, _ => (false, i)

/-- The folding loop inside Instruction::parse: starting from an already
recognized instruction and a count, keep folding bytes while update_with
accepts them. -/
def parseRun (i : Instruction) (rest : List Char) (count : Nat) : Nat × Instruction :=
  match rest with
  | [] => (count, i)
  | c :: cs =>
    match Instruction.update_with i c with
    | (true, i2) => parseRun i2 cs (count + 1)
    | (false, _) => (count, i)

/-- Instruction::parse: recognize the first byte, then fold following
compatible bytes; returns the number of bytes consumed and the instruction. -/
def Instruction.parse (str : List Char) : Except CErr (Nat × Instruction) :=
  match str with
  | [] => Except.error CErr.eof
  | c :: cs =>
    match Instruction.from_byte c with
    | none => Except.error CErr.unexpectedChar
    | some i => Except.ok (parseRun i cs 1)

/-- The scanning loop of Interpreter::with_str: repeatedly parse at the
current index; an error is reported together with the byte index at which
parse was called. Since every parse call consumes at least one byte, the
loop runs at most length many times; the fuel argument makes the recursion
structural and is initialized to the source length, so the fuel-exhausted
branch is unreachable. -/
def compileLoop : Nat → List Char → Nat → Except (CErr × Nat) (List Instruction)
  | _, [], _ => Except.ok []
  | 0, _ :: _, idx => Except.error (CErr.eof, idx)
  | fuel + 1, c :: cs, idx =>
    match Instruction.from_byte c with
    | none => Except.error (CErr.unexpectedChar, idx)
    | some i =>
      let r := parseRun i cs 1
      match compileLoop fuel (cs.drop (r.1 - 1)) (idx + r.1) with
      | Except.ok rest => Except.ok (r.2 :: rest)
      | Except.error e => Except.error e

/-- The loop of Instruction::update_jumps: index i scans the instruction
array, stack holds the indices of not yet matched open brackets with the most
recent on top. The recursion is structural over the suffix of the array that
has not been scanned yet: the loop body only ever writes at positions at most
i and the write at i happens after i was read, so reading the head of the
original suffix coincides with reading the mutated array at i. -/
def update_jumps_loop (instrs : List Instruction) (i : Nat) (stack : List Nat) :
    List Instruction → Except CErr (List Instruction)
  | [] =>
    if stack.isEmpty then Except.ok instrs else Except.error CErr.unmatchedOpen
  | instr :: remaining =>
    match instr with
    | Instruction.Jump _ => update_jumps_loop instrs (i + 1) (i :: stack) remaining
    | Instruction.JumpBack _ =>
      match stack with
      | start :: rest =>
        update_jumps_loop
          ((instrs.set start (Instruction.Jump i)).set i (Instruction.JumpBack start))
          (i + 1) rest remaining
      | [] => Except.error CErr.unmatchedClose
    | _ => update_jumps_loop instrs (i + 1) stack remaining

/-- Instruction::update_jumps. -/
def Instruction.update_jumps (instrs : List Instruction) : Except CErr (List Instruction) :=
  update_jumps_loop instrs 0 [] instrs

/-- usize::MAX, the clamp of usize saturating_add. -/
def USIZE_MAX : Nat := 2 ^ 64 - 1

/-- Instruction::execute. Receives the interpreter state in which poll has
already advanced pc by one. A none result models a Rust panic (memory access
out of bounds); some (none, s) means the instruction completed silently;
some (some o, s) means the instruction produced the output event o. -/
def Instruction.execute (i : Instruction) (s : Interpreter) :
    Option (Option OutputEvent × Interpreter) :=
  match i with
  | Instruction.Add n =>
    match s.memory.get? s.position with
    | some v => some (none, { s with memory := s.memory.set s.position (min (v + n) 255) })
    | none => none
  | Instruction.Sub n =>
    match s.memory.get? s.position with
    | some v => some (none, { s with memory := s.memory.set s.position (v - n) })
    | none => none
  | Instruction.MoveRight n =>
    some (none, { s with position := min (s.position + n) USIZE_MAX })
  | Instruction.MoveLeft n =>
    some (none, { s with position := s.position - n })
  | Instruction.Output =>
    match s.memory.get? s.position with
    | some v => some (some (Output.Output v), s)
    | none => none
  | Instruction.Input =>
    match s.input.getLast? with
    | some b =>
      match s.memory.get? s.position with
      | some _ =>
        some (none, { s with memory := s.memory.set s.position b, input := s.input.dropLast })
      | none => none
    | none => some (some Output.Input, { s with pc := s.pc - 1 })
  | Instruction.Jump t =>
    match s.memory.get? s.position with
    | some v => some (none, if v = 0 then { s with pc := t } else s)
    | none => none
  | Instruction.JumpBack t =>
    match s.memory.get? s.position with
    | some v => some (none, if v ≠ 0 then { s with pc := t } else s)
    | none => none

/-- Interpreter::new: 30000 zero cells, both pointers at 0, no program, no
pending input. -/
def Interpreter.new : Interpreter :=
  { memory := List.replicate 30000 0
    position := 0
    pc := 0
    instructions := []
    input := [] }

/-- Interpreter::with_str: scan and fold the source, then resolve jumps; a
jump resolution error is reported at position 0 as in the source. -/
def Interpreter.with_str (s : Interpreter) (bf : List Char) :
    Except (CErr × Nat) Interpreter :=
  match compileLoop bf.length bf 0 with
  | Except.error e => Except.error e
  | Except.ok instrs =>
    match Instruction.update_jumps instrs with
    | Except.error e => Except.error (e, 0)
    | Except.ok instrs2 => Except.ok { s with instructions := instrs2 }

/-- Result of one Interpreter::poll call: an output event together with the
state after the call, a panic, or exhaustion of the step fuel that makes the
potentially diverging loop total in the model. -/
inductive PollResult where
  | out (o : Output) (s : Interpreter)
  | panic
  | fuelOut (s : Interpreter)
deriving DecidableEq, Repr

/-- Interpreter::poll: return End immediately when pc is past the program,
otherwise fetch the instruction at pc, advance pc, execute, and loop until an
event is produced. fuel bounds the number of executed instructions. -/
def Interpreter.poll (fuel : Nat) (s : Interpreter) : PollResult :=
  if s.pc < s.instructions.length then
    match fuel with
    | 0 => PollResult.fuelOut s
    | f + 1 =>
      match s.instructions.get? s.pc with
      | none => PollResult.out Output.End s
      | some instr =>
        match instr.execute { s with pc := s.pc + 1 } with
        | none => PollResult.panic
        | some (some o, s2) => PollResult.out o s2
        | some (none, s2) => s2.poll f
  else PollResult.out Output.End s

/-- Interpreter::input, renamed because the Lean structure field is already
called input: extend_from_slice appends the given bytes at the back of the
pending input vector. -/
def Interpreter.appendInput (s : Interpreter) (l : List Nat) : Interpreter :=
  { s with input := s.input ++ l }

/-! Observation helpers used by the concrete scenario theorems. They compile
a source with Interpreter::with_str starting from Interpreter::new, feed
input through Interpreter::input, poll, and project small observable parts
of the result. -/

/-- First poll event together with the pc and the cell position after it. -/
def pollEventPcPos (src : List Char) (inp : List Nat) (fuel : Nat) :
    Option (Output × Nat × Nat) :=
  match Interpreter.new.with_str src with
  | Except.error _ => none
  | Except.ok s =>
    match (s.appendInput inp).poll fuel with
    | PollResult.out o s2 => some (o, s2.pc, s2.position)
    | _ => none

/-- First two poll events. -/
def eventsTwo (src : List Char) (inp : List Nat) (fuel : Nat) :
    Option (Output × Output) :=
  match Interpreter.new.with_str src with
  | Except.error _ => none
  | Except.ok s =>
    match (s.appendInput inp).poll fuel with
    | PollResult.out o s2 =>
      match s2.poll fuel with
      | PollResult.out o2 _ => some (o, o2)
      | _ => none
    | _ => none

/-- C9: the halted state is idempotent. Whenever the instruction pointer is
at or beyond the program length, poll returns the End event (never an error)
and the state, including tape, cell pointer and instruction pointer, is
returned unchanged, for every fuel bound. -/
theorem C9_halt_idempotent (s : Interpreter) (fuel : Nat)
    (h : s.instructions.length ≤ s.pc) :
    s.poll fuel = PollResult.out Output.End s := by
  unfold Interpreter.poll
  rw [if_neg]
  omega

/-- Witness for C9 at a concrete halted state. -/
theorem C9_halt_idempotent_witness :
    Interpreter.poll 7 ⟨[0], 0, 3, [Instruction.Add 1], []⟩ =
      PollResult.out Output.End ⟨[0], 0, 3, [Instruction.Add 1], []⟩ :=
  C9_halt_idempotent ⟨[0], 0, 3, [Instruction.Add 1], []⟩ 7 (by decide)

/-- C1 counterexample: the claim predicts that the source consisting of a
minus then a dot, run with empty input, emits the byte 255 (wrapping
subtraction from 0). The code saturates instead: the first event is an
emission of 0, not 255. -/
theorem C1_counterexample :
    eventsTwo ['-', '.'] [] 10 = some (Output.Output 0, Output.End) ∧
    some (Output.Output 0, Output.End) ≠ some (Output.Output 255, Output.End) := by
  constructor
  · decide
  · decide

/-- C1 amended: cell arithmetic saturates at the u8 bounds instead of
wrapping modulo 256. For every state whose cell pointer is in bounds with
cell value v, Add n stores min (v + n) 255 and Sub n stores the truncated
difference v - n; consequently the minus-dot source with empty input
produces an emission of 0 followed by End. -/
theorem C1_saturating_arithmetic :
    (∀ (s : Interpreter) (v n : Nat), s.memory.get? s.position = some v →
      (Instruction.Add n).execute s =
        some (none, { s with memory := s.memory.set s.position (min (v + n) 255) }) ∧
      (Instruction.Sub n).execute s =
        some (none, { s with memory := s.memory.set s.position (v - n) })) ∧
    eventsTwo ['-', '.'] [] 10 = some (Output.Output 0, Output.End) := by
  constructor
  · intro s v n h
    constructor
    · simp only [Instruction.execute, h]
    · simp only [Instruction.execute, h]
  · decide

/-- Witness for C1 amended at a concrete state and the concrete scenario. -/
theorem C1_saturating_arithmetic_witness :
    ((Instruction.Add 3).execute ⟨[7], 0, 0, [], []⟩ =
        some (none, { (⟨[7], 0, 0, [], []⟩ : Interpreter) with
          memory := [7].set 0 (min (7 + 3) 255) }) ∧
      (Instruction.Sub 3).execute ⟨[7], 0, 0, [], []⟩ =
        some (none, { (⟨[7], 0, 0, [], []⟩ : Interpreter) with
          memory := [7].set 0 (7 - 3) })) ∧
    eventsTwo ['-', '.'] [] 10 = some (Output.Output 0, Output.End) :=
  ⟨C1_saturating_arithmetic.1 ⟨[7], 0, 0, [], []⟩ 7 3 (by decide),
   C1_saturating_arithmetic.2⟩

/-- C3 counterexample: the claim predicts that moving left past zero returns
an out-of-bounds error without advancing the instruction pointer. Running
the single-character source consisting of one left arrow from the fresh
interpreter instead terminates normally with the End event and the
instruction pointer advanced to 1 (not restored to 0). -/
theorem C3_counterexample :
    pollEventPcPos ['<'] [] 10 = some (Output.End, 1, 0) ∧ (1 : Nat) ≠ 0 := by
  constructor
  · decide
  · decide

/-- C3 amended: MoveLeft n never reports an error. It always completes
silently, replacing the cell pointer by the truncated difference, which is 0
whenever n exceeds the pointer (no underflow), and leaves it to poll to
advance the instruction pointer normally. -/
theorem C3_moveleft_saturates (s : Interpreter) (n : Nat) :
    (Instruction.MoveLeft n).execute s =
      some (none, { s with position := s.position - n }) ∧
    (s.position < n → s.position - n = 0) := by
  constructor
  · simp [Instruction.execute]
  · omega

/-- Witness for C3 amended at a concrete state where n exceeds the pointer. -/
theorem C3_moveleft_saturates_witness :
    (Instruction.MoveLeft 5).execute ⟨[0], 2, 1, [Instruction.MoveLeft 5], []⟩ =
      some (none, { (⟨[0], 2, 1, [Instruction.MoveLeft 5], []⟩ : Interpreter) with
        position := 2 - 5 }) ∧
    ((2 : Nat) < 5 → 2 - 5 = 0) :=
  C3_moveleft_saturates ⟨[0], 2, 1, [Instruction.MoveLeft 5], []⟩ 5

/-- C4 counterexample: from a state whose cell pointer sits at 29999 on the
standard 30000-cell tape, executing MoveRight 2 places the pointer at 30001
without growing the tape (the memory list is returned unchanged), and the
subsequent cell access of an Add instruction at the new pointer panics
(models the Rust index panic) instead of succeeding. -/
theorem C4_counterexample :
    (Instruction.MoveRight 2).execute
        ⟨List.replicate 30000 0, 29999, 1, [Instruction.MoveRight 2, Instruction.Add 1], []⟩ =
      some (none,
        ⟨List.replicate 30000 0, 30001, 1, [Instruction.MoveRight 2, Instruction.Add 1], []⟩) ∧
    (Instruction.Add 1).execute
        ⟨List.replicate 30000 0, 30001, 2, [Instruction.MoveRight 2, Instruction.Add 1], []⟩ =
      none := by
  have hmem : (List.replicate 30000 (0 : Nat)).get? 30001 = none := by
    rw [List.get?_eq_getElem?, List.getElem?_replicate]
    norm_num
  constructor
  · rfl
  · simp only [Instruction.execute, hmem]

/-- C4 amended: MoveRight n never grows the tape. It only replaces the cell
pointer by the usize saturating sum, leaving the memory list untouched, and
any later cell access at an out-of-range pointer panics rather than
succeeding. -/
theorem C4_no_tape_growth :
    (∀ (s : Interpreter) (n : Nat),
      (Instruction.MoveRight n).execute s =
        some (none, { s with position := min (s.position + n) USIZE_MAX })) ∧
    (∀ s : Interpreter, s.memory.get? s.position = none →
      (Instruction.Add 1).execute s = none) := by
  constructor
  · intro s n
    simp only [Instruction.execute]
  · intro s h
    simp only [Instruction.execute, h]

/-- Witness for C4 amended at concrete states. -/
theorem C4_no_tape_growth_witness :
    (Instruction.MoveRight 3).execute ⟨[0, 0], 1, 0, [], []⟩ =
      some (none, { (⟨[0, 0], 1, 0, [], []⟩ : Interpreter) with
        position := min (1 + 3) USIZE_MAX }) ∧
    (Instruction.Add 1).execute ⟨[0, 0], 4, 0, [], []⟩ = none :=
  ⟨C4_no_tape_growth.1 ⟨[0, 0], 1, 0, [], []⟩ 3,
   C4_no_tape_growth.2 ⟨[0, 0], 4, 0, [], []⟩ (by decide)⟩

/-- C5 counterexample: appending the byte 1 and then the byte 2 to the
pending input and executing one Input instruction stores 2 (the most
recently appended byte, popped from the back of the vector) into the current
cell, not the front byte 1 that the first-in-first-out claim predicts. -/
theorem C5_counterexample :
    (Instruction.Input).execute
        ((Interpreter.appendInput (Interpreter.appendInput
          ⟨[0], 0, 1, [Instruction.Input], []⟩ [1]) [2])) =
      some (none, ⟨[2], 0, 1, [Instruction.Input], [1]⟩) ∧
    (2 : Nat) ≠ 1 := by
  constructor
  · decide
  · decide

/-- C5 amended: the pending input behaves as a stack (last in, first out).
For every state with a non-empty pending input, executing Input pops the
back byte, the one appended most recently, into the current cell, and leaves
the earlier bytes in place. -/
theorem C5_input_lifo (s : Interpreter) (b : Nat)
    (hlast : s.input.getLast? = some b)
    (hpos : s.memory.get? s.position = some (s.memory.getD s.position 0)) :
    (Instruction.Input).execute s =
      some (none, { s with memory := s.memory.set s.position b,
                           input := s.input.dropLast }) := by
  simp only [Instruction.execute, hlast, hpos]

/-- Witness for C5 amended at a concrete state. -/
theorem C5_input_lifo_witness :
    (Instruction.Input).execute ⟨[9], 0, 1, [Instruction.Input], [1, 2]⟩ =
      some (none, { (⟨[9], 0, 1, [Instruction.Input], [1, 2]⟩ : Interpreter) with
        memory := [9].set 0 2, input := [1, 2].dropLast }) :=
  C5_input_lifo ⟨[9], 0, 1, [Instruction.Input], [1, 2]⟩ 2 (by decide) (by decide)

set_option maxRecDepth 8000 in
/-- C10: evaluation of the fold-counter overflow. A run of 256 consecutive
plus characters drives the u8 counter of update_with through 255 + 1, which
overflows: the run parses to Add 0 (the wrapped release-mode result; debug
builds abort at this point), while a run of 255 still parses to Add 255.
This contradicts the claim that the counter never overflows. -/
theorem C10_fold_counter_overflow :
    Instruction.parse (List.replicate 256 '+') = Except.ok (256, Instruction.Add 0) ∧
    Instruction.parse (List.replicate 255 '+') = Except.ok (255, Instruction.Add 255) := by
  constructor
  · decide
  · decide


/-! Unfolding lemmas for poll, used throughout the development. -/

/-- Poll with the program counter at or past the end returns End. -/
theorem poll_halt (s : Interpreter) (fuel : Nat)
    (h : s.instructions.length ≤ s.pc) :
    s.poll fuel = PollResult.out Output.End s := by
  unfold Interpreter.poll
  rw [if_neg]
  omega

/-- Poll with zero fuel and a pending instruction reports fuel exhaustion. -/
theorem poll_zero (s : Interpreter) (h : s.pc < s.instructions.length) :
    s.poll 0 = PollResult.fuelOut s := by
  unfold Interpreter.poll
  rw [if_pos h]

/-- One poll iteration with a fetched instruction: advance pc, execute, and
dispatch on the execution result. -/
theorem poll_succ_some (s : Interpreter) (f : Nat) (instr : Instruction)
    (hins : s.instructions.get? s.pc = some instr) :
    s.poll (f + 1) =
      match instr.execute { s with pc := s.pc + 1 } with
      | none => PollResult.panic
      | some (some o, s2) => PollResult.out o s2
      | some (none, s2) => s2.poll f := by
  have hpc : s.pc < s.instructions.length := (List.get?_eq_some.mp hins).1
  conv_lhs => rw [Interpreter.poll]
  rw [if_pos hpc, hins]

/-- One poll iteration whose instruction executes silently continues with
the remaining fuel from the new state. -/
theorem poll_succ_silent (s s3 : Interpreter) (f : Nat) (instr : Instruction)
    (hins : s.instructions.get? s.pc = some instr)
    (hex : instr.execute { s with pc := s.pc + 1 } = some (none, s3)) :
    s.poll (f + 1) = s3.poll f := by
  rw [poll_succ_some s f instr hins, hex]

/-- One poll iteration whose instruction produces an event returns it. -/
theorem poll_succ_event (s s3 : Interpreter) (f : Nat) (instr : Instruction)
    (o : Output) (hins : s.instructions.get? s.pc = some instr)
    (hex : instr.execute { s with pc := s.pc + 1 } = some (some o, s3)) :
    s.poll (f + 1) = PollResult.out o s3 := by
  rw [poll_succ_some s f instr hins, hex]

/-- One poll iteration whose instruction panics reports the panic. -/
theorem poll_succ_panic (s : Interpreter) (f : Nat) (instr : Instruction)
    (hins : s.instructions.get? s.pc = some instr)
    (hex : instr.execute { s with pc := s.pc + 1 } = none) :
    s.poll (f + 1) = PollResult.panic := by
  rw [poll_succ_some s f instr hins, hex]

/-- Executing an instruction never changes the program: the instructions
field of the resulting state equals the one of the input state. -/
theorem Instruction.execute_instructions (i : Instruction) (s : Interpreter)
    (r : Option OutputEvent × Interpreter) (h : i.execute s = some r) :
    r.2.instructions = s.instructions := by
  cases i <;> simp only [Instruction.execute] at h <;> (repeat' split at h) <;>
    (try cases h) <;> (try rfl)

/-- The Input request event is produced only by the Input instruction on an
empty pending input, and then the produced state is the input state with the
program counter moved back by one. -/
theorem Instruction.execute_input_event (i : Instruction) (s s2 : Interpreter)
    (h : i.execute s = some (some Output.Input, s2)) :
    i = Instruction.Input ∧ s.input = [] ∧ s2 = { s with pc := s.pc - 1 } := by
  cases i <;> simp only [Instruction.execute] at h <;> (repeat' split at h) <;> simp_all

/-- Whenever poll returns the Input request, the returned state points with
its program counter exactly at the Input instruction that required input,
its pending input is empty, and the program is unchanged. -/
theorem poll_input_restores : ∀ (fuel : Nat) (s s2 : Interpreter),
    s.poll fuel = PollResult.out Output.Input s2 →
    s2.instructions.get? s2.pc = some Instruction.Input ∧ s2.input = [] ∧
      s2.instructions = s.instructions := by
  intro fuel
  induction fuel with
  | zero =>
    intro s s2 h
    by_cases hpc : s.pc < s.instructions.length
    · rw [poll_zero s hpc] at h
      exact absurd h (by simp)
    · rw [poll_halt s 0 (by omega)] at h
      simp only [PollResult.out.injEq] at h
      exact absurd h.1 (by simp)
  | succ f ih =>
    intro s s2 h
    cases hins : s.instructions.get? s.pc with
    | none =>
      have hlen : s.instructions.length ≤ s.pc := by
        simpa [List.get?_eq_none] using hins
      rw [poll_halt s (f + 1) hlen] at h
      simp only [PollResult.out.injEq] at h
      exact absurd h.1 (by simp)
    | some instr =>
      cases hex : instr.execute { s with pc := s.pc + 1 } with
      | none =>
        rw [poll_succ_panic s f instr hins hex] at h
        exact absurd h (by simp)
      | some r =>
        obtain ⟨e, s3⟩ := r
        cases e with
        | none =>
          rw [poll_succ_silent s s3 f instr hins hex] at h
          have hrec := ih s3 s2 h
          have hinstr3 : s3.instructions = s.instructions :=
            Instruction.execute_instructions instr _ _ hex
          exact ⟨hrec.1, hrec.2.1, hinstr3 ▸ hrec.2.2⟩
        | some o =>
          rw [poll_succ_event s s3 f instr o hins hex] at h
          simp only [PollResult.out.injEq] at h
          obtain ⟨ho, hs⟩ := h
          subst ho
          subst hs
          obtain ⟨hi, hinp, hst⟩ := Instruction.execute_input_event instr _ _ hex
          subst hi
          subst hst
          refine ⟨?_, hinp, rfl⟩
          simpa using hins

/-- Probe for the suspend and resume protocol: compile the source, poll to
the first Input request, record the restored pc, append one byte, poll
again, and record the event and the pc after it. -/
def resumeProbe (src : List Char) (b : Nat) (fuel : Nat) :
    Option (Nat × Output × Nat) :=
  match Interpreter.new.with_str src with
  | Except.error _ => none
  | Except.ok s =>
    match s.poll fuel with
    | PollResult.out Output.Input s1 =>
      match (s1.appendInput [b]).poll fuel with
      | PollResult.out o s2 => some (s1.pc, o, s2.pc)
      | _ => none
    | _ => none

/-- C7 counterexample: the claim predicts that after a NeedsInput suspension
the next step consumes the supplied byte and advances exactly one
instruction. On the source comma plus dot, the first poll suspends with pc
restored to 0; after appending the byte 65 the next poll runs to the next
event and returns the emission of 66 with pc equal to 3, not 1: poll is a
run-to-event loop, not a single-instruction step. -/
theorem C7_counterexample :
    resumeProbe [',', '+', '.'] 65 10 = some (0, Output.Output 66, 3) ∧
    (3 : Nat) ≠ 0 + 1 := by
  constructor
  · decide
  · decide

/-- C7 amended: when poll returns the Input request, the pc is restored to
the pending Input instruction and the queue is empty; after appending
exactly one byte, the next poll first executes exactly that pending Input
instruction once, consuming the byte and advancing the pc past it, and then
continues running from the following instruction with the remaining fuel
(poll runs until the next event rather than stopping after one
instruction). -/
theorem C7_resume_consumes_once :
    (∀ (fuel : Nat) (s s2 : Interpreter),
      s.poll fuel = PollResult.out Output.Input s2 →
      s2.instructions.get? s2.pc = some Instruction.Input ∧ s2.input = [] ∧
        s2.instructions = s.instructions) ∧
    (∀ (s : Interpreter) (b v : Nat) (f : Nat),
      s.instructions.get? s.pc = some Instruction.Input →
      s.input = [] →
      s.memory.get? s.position = some v →
      (s.appendInput [b]).poll (f + 1) =
        Interpreter.poll f
          { s with memory := s.memory.set s.position b, pc := s.pc + 1 }) := by
  constructor
  · exact poll_input_restores
  · intro s b v f hins hinp hmem
    have hins2 : (s.appendInput [b]).instructions.get? (s.appendInput [b]).pc =
        some Instruction.Input := hins
    rw [poll_succ_some (s.appendInput [b]) f Instruction.Input hins2]
    simp only [Instruction.execute, Interpreter.appendInput, hinp, hmem,
      List.nil_append, List.getLast?_singleton, List.dropLast_single]

/-- Witness for C7 amended at a concrete suspended state. -/
theorem C7_resume_consumes_once_witness :
    ((⟨[0], 0, 0, [Instruction.Input], []⟩ : Interpreter).instructions.get?
        (⟨[0], 0, 0, [Instruction.Input], []⟩ : Interpreter).pc =
          some Instruction.Input ∧
      (⟨[0], 0, 0, [Instruction.Input], []⟩ : Interpreter).input = [] ∧
      (⟨[0], 0, 0, [Instruction.Input], []⟩ : Interpreter).instructions =
        (⟨[0], 0, 0, [Instruction.Input], []⟩ : Interpreter).instructions) ∧
    ((⟨[0], 0, 0, [Instruction.Input], []⟩ : Interpreter).appendInput [5]).poll 1 =
      Interpreter.poll 0
        { (⟨[0], 0, 0, [Instruction.Input], []⟩ : Interpreter) with
          memory := [0].set 0 5, pc := 0 + 1 } :=
  ⟨C7_resume_consumes_once.1 1 ⟨[0], 0, 0, [Instruction.Input], []⟩
      ⟨[0], 0, 0, [Instruction.Input], []⟩ (by decide),
   C7_resume_consumes_once.2 ⟨[0], 0, 0, [Instruction.Input], []⟩ 5 0 0
      (by decide) (by decide) (by decide)⟩

/-! Bracket matching: classification of bracket words and correctness of the
jump resolution pass. -/

/-- Outcome of scanning a bracket word with a given number of pending open
brackets: balanced (all matched), overclose (a close with nothing pending),
or deficit (opens left pending at the end). -/
inductive BracketOutcome where
  | balanced
  | overclose
  | deficit
deriving DecidableEq, Repr

/-- Bracket classification of an instruction sequence, with k pending
opens. -/
def instrOutcome : List Instruction → Nat → BracketOutcome
  | [], k => if k = 0 then BracketOutcome.balanced else BracketOutcome.deficit
  | i :: rest, k =>
    match i with
    | Instruction.Jump _ => instrOutcome rest (k + 1)
    | Instruction.JumpBack _ =>
      if k = 0 then BracketOutcome.overclose else instrOutcome rest (k - 1)
    | _ => instrOutcome rest k

/-- Bracket classification of a character sequence, with k pending opens. -/
def charOutcome : List Char → Nat → BracketOutcome
  | [], k => if k = 0 then BracketOutcome.balanced else BracketOutcome.deficit
  | c :: rest, k =>
    if c = '[' then charOutcome rest (k + 1)
    else if c = ']' then
      (if k = 0 then BracketOutcome.overclose else charOutcome rest (k - 1))
    else charOutcome rest k

/-- An instruction is a bracket when it is a jump produced from one. -/
def isBracket : Instruction → Bool
  | Instruction.Jump _ => true
  | Instruction.JumpBack _ => true
  | _ => false

/-- An instruction is arithmetic when folding can extend it. -/
def isArith : Instruction → Bool
  | Instruction.Add _ => true
  | Instruction.Sub _ => true
  | Instruction.MoveRight _ => true
  | Instruction.MoveLeft _ => true
  | _ => false

/-- Setting an element before the dropped prefix does not change the
suffix. -/
theorem drop_set_of_lt {α : Type} (l : List α) (m n : Nat) (a : α)
    (h : m < n) : (l.set m a).drop n = l.drop n := by
  apply List.ext
  intro j
  rw [List.get?_drop, List.get?_drop, List.get?_set]
  rw [if_neg (by omega)]

/-- Folding preserves the constructor class of the instruction. -/
theorem update_with_isBracket (i : Instruction) (c : Char) :
    isBracket (i.update_with c).2 = isBracket i := by
  cases i <;> unfold Instruction.update_with <;> (repeat' split) <;> simp_all [isBracket]

/-- Folding accepts only the four arithmetic characters. -/
theorem update_with_true_char (i : Instruction) (c : Char)
    (h : (i.update_with c).1 = true) :
    c = '+' ∨ c = '-' ∨ c = '>' ∨ c = '<' := by
  cases i <;> unfold Instruction.update_with at h <;> (repeat' split at h) <;> simp_all

/-- Folding does nothing on non-arithmetic instructions. -/
theorem update_with_of_not_arith (i : Instruction) (c : Char)
    (h : isArith i = false) : i.update_with c = (false, i) := by
  cases i <;> first
  | rfl
  | simp [isArith] at h

/-- parseRun on a non-arithmetic instruction consumes nothing further. -/
theorem parseRun_of_not_arith (i : Instruction) (rest : List Char) (n : Nat)
    (h : isArith i = false) : parseRun i rest n = (n, i) := by
  cases rest with
  | nil => rfl
  | cons d ds =>
    unfold parseRun
    rw [update_with_of_not_arith i d h]

/-- The count of parseRun never decreases. -/
theorem parseRun_count_ge : ∀ (rest : List Char) (i : Instruction) (n : Nat),
    n ≤ (parseRun i rest n).1 := by
  intro rest
  induction rest with
  | nil => intro i n; exact Nat.le_refl n
  | cons d ds ih =>
    intro i n
    unfold parseRun
    cases hu : i.update_with d with
    | mk accepted i2 =>
      cases accepted with
      | true =>
        simp only
        exact Nat.le_trans (Nat.le_succ n) (ih i2 (n + 1))
      | false => simp only [Nat.le_refl]

/-- The count of parseRun grows at most by the length of the rest. -/
theorem parseRun_count_le : ∀ (rest : List Char) (i : Instruction) (n : Nat),
    (parseRun i rest n).1 ≤ n + rest.length := by
  intro rest
  induction rest with
  | nil => intro i n; simp [parseRun]
  | cons d ds ih =>
    intro i n
    unfold parseRun
    cases hu : i.update_with d with
    | mk accepted i2 =>
      cases accepted with
      | true =>
        simp only [List.length_cons]
        have := ih i2 (n + 1)
        omega
      | false =>
        simp only [List.length_cons]
        omega

/-- parseRun preserves the bracket class of the instruction. -/
theorem parseRun_isBracket : ∀ (rest : List Char) (i : Instruction) (n : Nat),
    isBracket (parseRun i rest n).2 = isBracket i := by
  intro rest
  induction rest with
  | nil => intro i n; rfl
  | cons d ds ih =>
    intro i n
    unfold parseRun
    cases hu : i.update_with d with
    | mk accepted i2 =>
      cases accepted with
      | true =>
        simp only
        rw [ih i2 (n + 1)]
        have hb := update_with_isBracket i d
        rw [hu] at hb
        exact hb
      | false => rfl

/-- Every character consumed by the folding loop beyond the first one is one
of the four arithmetic characters. -/
theorem parseRun_take_arith : ∀ (rest : List Char) (i : Instruction) (n : Nat)
    (c : Char), c ∈ rest.take ((parseRun i rest n).1 - n) →
    c = '+' ∨ c = '-' ∨ c = '>' ∨ c = '<' := by
  intro rest
  induction rest with
  | nil =>
    intro i n c hc
    simp [parseRun] at hc
  | cons d ds ih =>
    intro i n c hc
    unfold parseRun at hc
    cases hu : i.update_with d with
    | mk accepted i2 =>
      rw [hu] at hc
      cases accepted with
      | true =>
        simp only at hc
        have hge := parseRun_count_ge ds i2 (n + 1)
        have hk : (parseRun i2 ds (n + 1)).1 - n =
            ((parseRun i2 ds (n + 1)).1 - (n + 1)) + 1 := by omega
        rw [hk] at hc
        simp only [List.take_succ_cons, List.mem_cons] at hc
        cases hc with
        | inl hcd =>
          subst hcd
          have : (i.update_with c).1 = true := by rw [hu]
          exact update_with_true_char i c this
        | inr hmem => exact ih i2 (n + 1) c hmem
      | false =>
        simp only [Nat.sub_self, List.take_zero] at hc
        exact absurd hc (List.not_mem_nil c)


/-- A non-bracket character leaves the bracket classification unchanged. -/
theorem charOutcome_cons_nonbracket (d : Char) (rest : List Char) (k : Nat)
    (h1 : d ≠ '[') (h2 : d ≠ ']') :
    charOutcome (d :: rest) k = charOutcome rest k := by
  conv_lhs => rw [charOutcome]
  rw [if_neg h1, if_neg h2]

/-- Characters that are not brackets do not change the bracket
classification. -/
theorem charOutcome_append_nonbracket :
    ∀ (pre rest : List Char) (k : Nat),
    (∀ c ∈ pre, c ≠ '[' ∧ c ≠ ']') →
    charOutcome (pre ++ rest) k = charOutcome rest k := by
  intro pre
  induction pre with
  | nil => intro rest k _; rfl
  | cons d ds ih =>
    intro rest k h
    have hd := h d (List.mem_cons_self d ds)
    rw [List.cons_append, charOutcome_cons_nonbracket d _ k hd.1 hd.2]
    exact ih rest k (fun c hc => h c (List.mem_cons_of_mem d hc))

/-- Non-bracket instructions do not change the bracket classification. -/
theorem instrOutcome_cons_nonbracket (j : Instruction) (F : List Instruction)
    (k : Nat) (h : isBracket j = false) :
    instrOutcome (j :: F) k = instrOutcome F k := by
  cases j <;> first
  | rfl
  | simp [isBracket] at h

/-- An open bracket increments the pending count. -/
theorem instrOutcome_cons_jump (t : Nat) (F : List Instruction) (k : Nat) :
    instrOutcome (Instruction.Jump t :: F) k = instrOutcome F (k + 1) := rfl

/-- Dropping the characters consumed by a folding run does not change the
bracket classification: every consumed character is arithmetic. -/
theorem outcome_skip_run (iA : Instruction) (cs : List Char) (k : Nat) :
    charOutcome (cs.drop ((parseRun iA cs 1).1 - 1)) k = charOutcome cs k := by
  conv_rhs => rw [← List.take_append_drop ((parseRun iA cs 1).1 - 1) cs]
  rw [charOutcome_append_nonbracket]
  intro d hd
  rcases parseRun_take_arith cs iA 1 d hd with h1 | h1 | h1 | h1 <;>
    (subst h1; exact ⟨by decide, by decide⟩)

/-- Inversion of from_byte: the eight recognized characters and the
instructions they start. -/
theorem from_byte_inv (c : Char) (i : Instruction)
    (h : Instruction.from_byte c = some i) :
    (c = '+' ∧ i = Instruction.Add 1) ∨ (c = '-' ∧ i = Instruction.Sub 1) ∨
    (c = '>' ∧ i = Instruction.MoveRight 1) ∨
    (c = '<' ∧ i = Instruction.MoveLeft 1) ∨
    (c = '.' ∧ i = Instruction.Output) ∨ (c = ',' ∧ i = Instruction.Input) ∨
    (c = '[' ∧ i = Instruction.Jump 0) ∨
    (c = ']' ∧ i = Instruction.JumpBack 0) := by
  unfold Instruction.from_byte at h
  (repeat' split at h) <;> simp_all

/-- The step case of the scan for a character that is not a bracket: the
folded instruction is skipped by the instruction classification exactly as
the consumed characters are skipped by the character classification. -/
theorem nonbracket_case (c : Char) (iA : Instruction) (cs : List Char)
    (F' : List Instruction) (k : Nat)
    (hbr : isBracket iA = false) (h1 : c ≠ '[') (h2 : c ≠ ']')
    (hout : ∀ k, instrOutcome F' k =
      charOutcome (cs.drop ((parseRun iA cs 1).1 - 1)) k) :
    instrOutcome ((parseRun iA cs 1).2 :: F') k = charOutcome (c :: cs) k := by
  rw [instrOutcome_cons_nonbracket _ _ _
      (by rw [parseRun_isBracket cs iA 1]; exact hbr),
    hout k, outcome_skip_run iA cs k, charOutcome_cons_nonbracket c cs k h1 h2]

/-- The compilation scan succeeds on recognized characters and produces an
instruction stream with the same bracket classification as the source. -/
theorem compile_brackets : ∀ (fuel : Nat) (src : List Char) (idx : Nat),
    src.length ≤ fuel →
    (∀ c ∈ src, (Instruction.from_byte c).isSome) →
    ∃ F, compileLoop fuel src idx = Except.ok F ∧
      ∀ k, instrOutcome F k = charOutcome src k := by
  intro fuel
  induction fuel with
  | zero =>
    intro src idx hlen _
    cases src with
    | nil => exact ⟨[], rfl, fun k => rfl⟩
    | cons c cs => simp at hlen
  | succ f ih =>
    intro src idx hlen hrec
    cases src with
    | nil => exact ⟨[], rfl, fun k => rfl⟩
    | cons c cs =>
      have hc : (Instruction.from_byte c).isSome :=
        hrec c (List.mem_cons_self c cs)
      cases hfb : Instruction.from_byte c with
      | none => rw [hfb] at hc; simp at hc
      | some i =>
        have hrest : ∀ d ∈ cs.drop ((parseRun i cs 1).1 - 1),
            (Instruction.from_byte d).isSome :=
          fun d hd => hrec d (List.mem_cons_of_mem c (List.mem_of_mem_drop hd))
        have hlen2 : (cs.drop ((parseRun i cs 1).1 - 1)).length ≤ f := by
          simp only [List.length_drop]
          simp only [List.length_cons] at hlen
          omega
        obtain ⟨F', hF', hout⟩ :=
          ih (cs.drop ((parseRun i cs 1).1 - 1)) (idx + (parseRun i cs 1).1)
            hlen2 hrest
        have hloop : compileLoop (f + 1) (c :: cs) idx =
            Except.ok ((parseRun i cs 1).2 :: F') := by
          unfold compileLoop
          rw [hfb]
          simp only [hF']
        refine ⟨(parseRun i cs 1).2 :: F', hloop, ?_⟩
        intro k
        rcases from_byte_inv c i hfb with
          ⟨hcq, hiq⟩ | ⟨hcq, hiq⟩ | ⟨hcq, hiq⟩ | ⟨hcq, hiq⟩ |
          ⟨hcq, hiq⟩ | ⟨hcq, hiq⟩ | ⟨hcq, hiq⟩ | ⟨hcq, hiq⟩ <;>
          subst hcq <;> subst hiq
        -- the six non-bracket characters: the produced instruction is not a
        -- bracket and all consumed characters are arithmetic, so both
        -- classifications skip the whole consumed run
        all_goals try
          exact nonbracket_case _ _ cs F' k rfl (by decide) (by decide) hout
        -- the open bracket: one instruction, pending count goes up
        · rw [parseRun_of_not_arith (Instruction.Jump 0) cs 1 rfl] at hout ⊢
          simp only [Nat.sub_self, List.drop_zero] at hout
          conv_rhs => rw [charOutcome]
          rw [if_pos rfl]
          exact hout (k + 1)
        -- the close bracket: one instruction, overclose or count goes down
        · rw [parseRun_of_not_arith (Instruction.JumpBack 0) cs 1 rfl] at hout ⊢
          simp only [Nat.sub_self, List.drop_zero] at hout
          conv_rhs => rw [charOutcome]
          rw [if_neg (by decide), if_pos rfl]
          show (if k = 0 then BracketOutcome.overclose else instrOutcome F' (k - 1)) = _
          cases k with
          | zero => rfl
          | succ k2 =>
            rw [if_neg (Nat.succ_ne_zero k2), if_neg (Nat.succ_ne_zero k2)]
            simpa using hout k2

/-- Invariant of the jump resolution loop, at scan position i with pending
open stack st over the current array A: stack entries are scanned positions
holding still unresolved open jumps, in strictly decreasing order, and every
already scanned position not on the stack is fully resolved, pointing at a
partner that points back. -/
structure JumpsInv (A : List Instruction) (i : Nat) (st : List Nat) : Prop where
  bounds : ∀ x ∈ st, x < i
  chain : List.Chain' (fun a b => b < a) st
  opens : ∀ x ∈ st, ∃ t, A.get? x = some (Instruction.Jump t)
  resJ : ∀ p t, A.get? p = some (Instruction.Jump t) → p < i → p ∉ st →
    t < i ∧ t ∉ st ∧ A.get? t = some (Instruction.JumpBack p)
  resB : ∀ p t, A.get? p = some (Instruction.JumpBack t) → p < i →
    t < p ∧ t ∉ st ∧ A.get? t = some (Instruction.Jump p)

/-- Stack entries are pairwise strictly decreasing. -/
theorem JumpsInv.pairwise {A : List Instruction} {i : Nat} {st : List Nat}
    (h : JumpsInv A i st) : List.Pairwise (fun a b => b < a) st :=
  (List.chain'_iff_pairwise.mp h.chain)

/-- Invariant step for a scanned instruction that is not a bracket. -/
theorem inv_step_other {A : List Instruction} {i : Nat} {st : List Nat}
    {instr : Instruction} (hgi : A.get? i = some instr)
    (hnb : isBracket instr = false) (h : JumpsInv A i st) :
    JumpsInv A (i + 1) st := by
  refine ⟨fun x hx => Nat.lt_succ_of_lt (h.bounds x hx), h.chain, h.opens,
    ?_, ?_⟩
  · intro p t hp hlt hnot
    rcases Nat.lt_succ_iff_lt_or_eq.mp hlt with hlt2 | heq
    · obtain ⟨h1, h2, h3⟩ := h.resJ p t hp hlt2 hnot
      exact ⟨Nat.lt_succ_of_lt h1, h2, h3⟩
    · subst heq
      rw [hgi] at hp
      cases hp
      simp [isBracket] at hnb
  · intro p t hp hlt
    rcases Nat.lt_succ_iff_lt_or_eq.mp hlt with hlt2 | heq
    · exact h.resB p t hp hlt2
    · subst heq
      rw [hgi] at hp
      cases hp
      simp [isBracket] at hnb

/-- Invariant step for a scanned open bracket: its position is pushed. -/
theorem inv_step_jump {A : List Instruction} {i : Nat} {st : List Nat}
    {t0 : Nat} (hgi : A.get? i = some (Instruction.Jump t0))
    (h : JumpsInv A i st) : JumpsInv A (i + 1) (i :: st) := by
  refine ⟨?_, ?_, ?_, ?_, ?_⟩
  · intro x hx
    rcases List.mem_cons.mp hx with hx | hx
    · omega
    · exact Nat.lt_succ_of_lt (h.bounds x hx)
  · rw [List.chain'_cons']
    exact ⟨fun y hy => h.bounds y (List.mem_of_mem_head? hy), h.chain⟩
  · intro x hx
    rcases List.mem_cons.mp hx with hx | hx
    · subst hx; exact ⟨t0, hgi⟩
    · exact h.opens x hx
  · intro p t hp hlt hnot
    have hpi : p ≠ i := fun hq => hnot (hq ▸ List.mem_cons_self i st)
    have hpst : p ∉ st := fun hq => hnot (List.mem_cons_of_mem i hq)
    have hlt2 : p < i := by omega
    obtain ⟨h1, h2, h3⟩ := h.resJ p t hp hlt2 hpst
    refine ⟨Nat.lt_succ_of_lt h1, ?_, h3⟩
    intro hq
    rcases List.mem_cons.mp hq with hq | hq
    · omega
    · exact h2 hq
  · intro p t hp hlt
    rcases Nat.lt_succ_iff_lt_or_eq.mp hlt with hlt2 | heq
    · obtain ⟨h1, h2, h3⟩ := h.resB p t hp hlt2
      refine ⟨h1, ?_, h3⟩
      intro hq
      rcases List.mem_cons.mp hq with hq | hq
      · omega
      · exact h2 hq
    · subst heq
      rw [hgi] at hp
      cases hp

/-- Invariant step for a scanned close bracket: the most recent open is
popped and the two positions are overwritten to point at each other. -/
theorem inv_step_jumpback {A : List Instruction} {i : Nat} {start : Nat}
    {stRest : List Nat} {t0 : Nat}
    (hgi : A.get? i = some (Instruction.JumpBack t0))
    (h : JumpsInv A i (start :: stRest)) :
    JumpsInv ((A.set start (Instruction.Jump i)).set i
        (Instruction.JumpBack start)) (i + 1) stRest := by
  have hstart_lt : start < i := h.bounds start (List.mem_cons_self start stRest)
  obtain ⟨topen, hopen⟩ := h.opens start (List.mem_cons_self start stRest)
  have hrest_lt : ∀ x ∈ stRest, x < start :=
    (List.pairwise_cons.mp h.pairwise).1
  have hA'other : ∀ p, p ≠ start → p ≠ i →
      ((A.set start (Instruction.Jump i)).set i
        (Instruction.JumpBack start)).get? p = A.get? p := by
    intro p hps hpi
    rw [List.get?_set, if_neg (fun hq => hpi hq.symm),
      List.get?_set, if_neg (fun hq => hps hq.symm)]
  have hA'i : ((A.set start (Instruction.Jump i)).set i
      (Instruction.JumpBack start)).get? i = some (Instruction.JumpBack start) := by
    rw [List.get?_set, if_pos rfl, List.get?_set,
      if_neg (fun hq => (Nat.ne_of_lt hstart_lt) hq), hgi]
    rfl
  have hA'start : ((A.set start (Instruction.Jump i)).set i
      (Instruction.JumpBack start)).get? start = some (Instruction.Jump i) := by
    rw [List.get?_set, if_neg (fun hq => (Nat.ne_of_lt hstart_lt) hq.symm),
      List.get?_set, if_pos rfl, hopen]
    rfl
  refine ⟨?_, ?_, ?_, ?_, ?_⟩
  · intro x hx
    exact Nat.lt_succ_of_lt (h.bounds x (List.mem_cons_of_mem start hx))
  · exact List.chain'_iff_pairwise.mpr (List.pairwise_cons.mp h.pairwise).2
  · intro x hx
    have hxs : x ≠ start := Nat.ne_of_lt (hrest_lt x hx)
    have hxi : x ≠ i :=
      Nat.ne_of_lt (h.bounds x (List.mem_cons_of_mem start hx))
    rw [hA'other x hxs hxi]
    exact h.opens x (List.mem_cons_of_mem start hx)
  · intro p t hp hlt hnot
    by_cases hpi : p = i
    · subst hpi
      rw [hA'i] at hp
      cases hp
    · by_cases hps : p = start
      · subst hps
        rw [hA'start] at hp
        cases hp
        refine ⟨Nat.lt_succ_self i, ?_, hA'i⟩
        intro hq
        exact absurd (hrest_lt i hq) (by omega)
      · rw [hA'other p hps hpi] at hp
        have hlt2 : p < i := by omega
        have hnot2 : p ∉ start :: stRest := by
          intro hq
          rcases List.mem_cons.mp hq with hq | hq
          · exact hps hq
          · exact hnot hq
        obtain ⟨h1, h2, h3⟩ := h.resJ p t hp hlt2 hnot2
        have hts : t ≠ start := fun hq => h2 (hq ▸ List.mem_cons_self start stRest)
        have hti : t ≠ i := by omega
        refine ⟨by omega, ?_, ?_⟩
        · intro hq
          exact h2 (List.mem_cons_of_mem start hq)
        · rw [hA'other t hts hti]
          exact h3
  · intro p t hp hlt
    by_cases hpi : p = i
    · subst hpi
      rw [hA'i] at hp
      cases hp
      refine ⟨hstart_lt, ?_, hA'start⟩
      intro hq
      exact absurd (hrest_lt start hq) (by omega)
    · by_cases hps : p = start
      · subst hps
        rw [hA'start] at hp
        cases hp
      · rw [hA'other p hps hpi] at hp
        have hlt2 : p < i := by omega
        obtain ⟨h1, h2, h3⟩ := h.resB p t hp hlt2
        have hts : t ≠ start := fun hq => h2 (hq ▸ List.mem_cons_self start stRest)
        have hti : t ≠ i := by omega
        refine ⟨h1, ?_, ?_⟩
        · intro hq
          exact h2 (List.mem_cons_of_mem start hq)
        · rw [hA'other t hts hti]
          exact h3

/-- Master specification of the jump resolution loop: started on the suffix
of the array at the scan position with the invariant holding, the loop
reports an unmatched close exactly on an overclosing suffix, an unmatched
open exactly on a deficit, and on a balanced suffix returns an array in
which open and close jumps point at each other symmetrically. -/
theorem ujl_spec : ∀ (rem : List Instruction) (A : List Instruction) (i : Nat)
    (st : List Nat), rem = A.drop i → JumpsInv A i st →
    (instrOutcome rem st.length = BracketOutcome.overclose →
      update_jumps_loop A i st rem = Except.error CErr.unmatchedClose) ∧
    (instrOutcome rem st.length = BracketOutcome.deficit →
      update_jumps_loop A i st rem = Except.error CErr.unmatchedOpen) ∧
    (instrOutcome rem st.length = BracketOutcome.balanced →
      ∃ B, update_jumps_loop A i st rem = Except.ok B ∧
        ∀ p t, B.get? p = some (Instruction.Jump t) ↔
               B.get? t = some (Instruction.JumpBack p)) := by
  intro rem
  induction rem with
  | nil =>
    intro A i st hrem hinv
    have hlen : A.length ≤ i := by
      have := congrArg List.length hrem
      simp only [List.length_nil, List.length_drop] at this
      omega
    cases st with
    | nil =>
      refine ⟨?_, ?_, ?_⟩
      · intro h; simp [instrOutcome] at h
      · intro h; simp [instrOutcome] at h
      · intro _
        refine ⟨A, rfl, ?_⟩
        intro p t
        constructor
        · intro hp
          have hplt : p < i := by
            have := (List.get?_eq_some.mp hp).1
            omega
          exact (hinv.resJ p t hp hplt (List.not_mem_nil p)).2.2
        · intro ht
          have htlt : t < i := by
            have := (List.get?_eq_some.mp ht).1
            omega
          exact (hinv.resB t p ht htlt).2.2
    | cons x xs =>
      refine ⟨?_, fun _ => rfl, ?_⟩
      · intro h; simp [instrOutcome] at h
      · intro h; simp [instrOutcome] at h
  | cons instr rest ih =>
    intro A i st hrem hinv
    have hgi : A.get? i = some instr := by
      have h0 := List.get?_drop A i 0
      rw [← hrem] at h0
      simpa using h0.symm
    have hrest : rest = A.drop (i + 1) := by
      have h1 : (instr :: rest).drop 1 = (A.drop i).drop 1 := by rw [hrem]
      simpa [List.drop_drop] using h1
    cases instr with
    | Jump t0 =>
      exact ih A (i + 1) (i :: st) hrest (inv_step_jump hgi hinv)
    | JumpBack t0 =>
      cases st with
      | nil =>
        refine ⟨fun _ => rfl, ?_, ?_⟩
        · intro h; simp [instrOutcome] at h
        · intro h; simp [instrOutcome] at h
      | cons start stRest =>
        have hstart_lt : start < i :=
          hinv.bounds start (List.mem_cons_self start stRest)
        have hrest2 : rest = ((A.set start (Instruction.Jump i)).set i
            (Instruction.JumpBack start)).drop (i + 1) := by
          rw [drop_set_of_lt _ _ _ _ (Nat.lt_succ_self i),
            drop_set_of_lt _ _ _ _ (by omega)]
          exact hrest
        exact ih _ (i + 1) stRest hrest2 (inv_step_jumpback hgi hinv)
    | Add n =>
      exact ih A (i + 1) st hrest (inv_step_other hgi rfl hinv)
    | Sub n =>
      exact ih A (i + 1) st hrest (inv_step_other hgi rfl hinv)
    | MoveRight n =>
      exact ih A (i + 1) st hrest (inv_step_other hgi rfl hinv)
    | MoveLeft n =>
      exact ih A (i + 1) st hrest (inv_step_other hgi rfl hinv)
    | Output =>
      exact ih A (i + 1) st hrest (inv_step_other hgi rfl hinv)
    | Input =>
      exact ih A (i + 1) st hrest (inv_step_other hgi rfl hinv)

/-- Specification of Instruction::update_jumps, instantiating the loop spec
at the start of the scan. -/
theorem update_jumps_spec (F : List Instruction) :
    (instrOutcome F 0 = BracketOutcome.overclose →
      Instruction.update_jumps F = Except.error CErr.unmatchedClose) ∧
    (instrOutcome F 0 = BracketOutcome.deficit →
      Instruction.update_jumps F = Except.error CErr.unmatchedOpen) ∧
    (instrOutcome F 0 = BracketOutcome.balanced →
      ∃ B, Instruction.update_jumps F = Except.ok B ∧
        ∀ p t, B.get? p = some (Instruction.Jump t) ↔
               B.get? t = some (Instruction.JumpBack p)) :=
  ujl_spec F F 0 [] (by simp)
    ⟨fun x hx => absurd hx (List.not_mem_nil x), List.chain'_nil,
     fun x hx => absurd hx (List.not_mem_nil x),
     fun p _ _ hlt _ => absurd hlt (Nat.not_lt_zero p),
     fun p _ _ hlt => absurd hlt (Nat.not_lt_zero p)⟩

/-- Unfolding of with_str once the scan result is known. -/
theorem with_str_eq (s : Interpreter) (bf : List Char) (F : List Instruction)
    (hF : compileLoop bf.length bf 0 = Except.ok F) :
    s.with_str bf =
      (match Instruction.update_jumps F with
       | Except.error e => Except.error (e, 0)
       | Except.ok instrs2 => Except.ok { s with instructions := instrs2 }) := by
  unfold Interpreter.with_str
  rw [hF]

/-- Lookup into the instruction stream compiled from a source. -/
def compiledAt (src : List Char) (j : Nat) : Option Instruction :=
  match Interpreter.new.with_str src with
  | Except.ok s => s.instructions.get? j
  | Except.error _ => none

/-- C6: for every source made of recognized characters whose brackets are
balanced, compilation succeeds and the resolved jumps are symmetric: the
instruction at p is a Jump to t exactly when the instruction at t is a
JumpBack to p, with no dangling targets. -/
theorem C6_bracket_symmetry (src : List Char)
    (hrec : ∀ c ∈ src, (Instruction.from_byte c).isSome)
    (hbal : charOutcome src 0 = BracketOutcome.balanced) :
    (Interpreter.new.with_str src).isOk = true ∧
    ∀ p t, compiledAt src p = some (Instruction.Jump t) ↔
           compiledAt src t = some (Instruction.JumpBack p) := by
  obtain ⟨F, hF, hout⟩ := compile_brackets src.length src 0 (Nat.le_refl _) hrec
  have hco : instrOutcome F 0 = BracketOutcome.balanced := by rw [hout 0, hbal]
  obtain ⟨B, hB, hsym⟩ := (update_jumps_spec F).2.2 hco
  have hws : Interpreter.new.with_str src =
      Except.ok { Interpreter.new with instructions := B } := by
    rw [with_str_eq Interpreter.new src F hF, hB]
  constructor
  · rw [hws]; rfl
  · intro p t
    have hc : ∀ j, compiledAt src j = B.get? j := by
      intro j
      unfold compiledAt
      rw [hws]
    rw [hc p, hc t]
    exact hsym p t

/-- Witness for C6 on the concrete source open dot close. -/
theorem C6_bracket_symmetry_witness :
    (Interpreter.new.with_str ['[', '.', ']']).isOk = true ∧
    (compiledAt ['[', '.', ']'] 0 = some (Instruction.Jump 2) ↔
     compiledAt ['[', '.', ']'] 2 = some (Instruction.JumpBack 0)) :=
  ⟨(C6_bracket_symmetry ['[', '.', ']'] (by decide) (by decide)).1,
   (C6_bracket_symmetry ['[', '.', ']'] (by decide) (by decide)).2 0 2⟩

/-- C8 counterexample: the claim predicts that the unmatched close error of
the source plus plus close carries position 2 (the byte position of the
close bracket; its instruction index would be 1), and that the unmatched
open error of the source plus open plus carries position 1. The code always
reports position 0 for both jump resolution errors. -/
theorem C8_counterexample :
    Interpreter.new.with_str ['+', '+', ']'] =
      Except.error (CErr.unmatchedClose, 0) ∧
    (0 : Nat) ≠ 2 ∧
    Interpreter.new.with_str ['+', '[', '+'] =
      Except.error (CErr.unmatchedOpen, 0) ∧
    (0 : Nat) ≠ 1 := by
  refine ⟨by decide, by decide, by decide, by decide⟩

/-- C8 amended: on recognized characters, compilation fails with the
unmatched close error exactly when the source overcloses and with the
unmatched open error exactly when opens are left pending, but both errors
always carry position 0 (the source maps every jump resolution error to
position 0 rather than the bracket position). -/
theorem C8_unmatched_error_position (src : List Char)
    (hrec : ∀ c ∈ src, (Instruction.from_byte c).isSome) :
    (charOutcome src 0 = BracketOutcome.overclose →
      Interpreter.new.with_str src = Except.error (CErr.unmatchedClose, 0)) ∧
    (charOutcome src 0 = BracketOutcome.deficit →
      Interpreter.new.with_str src = Except.error (CErr.unmatchedOpen, 0)) := by
  obtain ⟨F, hF, hout⟩ := compile_brackets src.length src 0 (Nat.le_refl _) hrec
  constructor
  · intro h
    have herr := (update_jumps_spec F).1 (by rw [hout 0]; exact h)
    rw [with_str_eq Interpreter.new src F hF, herr]
  · intro h
    have herr := (update_jumps_spec F).2.1 (by rw [hout 0]; exact h)
    rw [with_str_eq Interpreter.new src F hF, herr]

/-- Witness for C8 amended on two concrete sources. -/
theorem C8_unmatched_error_position_witness :
    Interpreter.new.with_str ['+', '+', ']'] =
      Except.error (CErr.unmatchedClose, 0) ∧
    Interpreter.new.with_str ['+', '[', '+'] =
      Except.error (CErr.unmatchedOpen, 0) :=
  ⟨(C8_unmatched_error_position ['+', '+', ']'] (by decide)).1 (by decide),
   (C8_unmatched_error_position ['+', '[', '+'] (by decide)).2 (by decide)⟩

/-! Folding transparency: a trace-collecting driver loop over the same
fetch and execute step as poll, and a straight-line denotation of
bracket-free instruction streams. -/

/-- Result of driving the machine to completion: the collected emitted
bytes, and the way the run ended (end of program, input request, panic, or
fuel exhaustion of the model). -/
inductive RunResult where
  | done (emits : List Nat) (s : Interpreter)
  | needsInput (emits : List Nat) (s : Interpreter)
  | panic (emits : List Nat)
  | fuelOut (emits : List Nat) (s : Interpreter)
deriving DecidableEq, Repr

/-- Prepend one emitted byte to a run result. -/
def RunResult.consEmit (b : Nat) : RunResult → RunResult
  | RunResult.done e s => RunResult.done (b :: e) s
  | RunResult.needsInput e s => RunResult.needsInput (b :: e) s
  | RunResult.panic e => RunResult.panic (b :: e)
  | RunResult.fuelOut e s => RunResult.fuelOut (b :: e) s

/-- The driver loop of a caller such as main.rs, inlined over the same
fetch-advance-execute step as Interpreter::poll: run instruction by
instruction, collect every emitted byte, and stop at the end of the
program, at an input request, or at a panic. fuel bounds the number of
executed instructions. -/
def Interpreter.runTrace : Nat → Interpreter → RunResult
  | 0, s => RunResult.fuelOut [] s
  | f + 1, s =>
    match s.instructions.get? s.pc with
    | none => RunResult.done [] s
    | some instr =>
      match instr.execute { s with pc := s.pc + 1 } with
      | none => RunResult.panic []
      | some (some (Output.Output b), s2) => (s2.runTrace f).consEmit b
      | some (some Output.Input, s2) => RunResult.needsInput [] s2
      | some (some Output.End, s2) => RunResult.done [] s2
      | some (none, s2) => s2.runTrace f

/-- One driver iteration with a fetched instruction. -/
theorem runTrace_step (s : Interpreter) (f : Nat) (instr : Instruction)
    (hins : s.instructions.get? s.pc = some instr) :
    s.runTrace (f + 1) =
      match instr.execute { s with pc := s.pc + 1 } with
      | none => RunResult.panic []
      | some (some (Output.Output b), s2) => (s2.runTrace f).consEmit b
      | some (some Output.Input, s2) => RunResult.needsInput [] s2
      | some (some Output.End, s2) => RunResult.done [] s2
      | some (none, s2) => s2.runTrace f := by
  conv_lhs => rw [Interpreter.runTrace]
  rw [hins]

/-- Machine state of the straight-line denotation: memory, cell position
and pending input. -/
structure MState where
  memory : List Nat
  position : Nat
  input : List Nat
deriving DecidableEq, Repr

/-- Result of the straight-line denotation. -/
inductive SRes where
  | ok (emits : List Nat) (m : MState)
  | needsInput (emits : List Nat) (m : MState)
  | panic (emits : List Nat)
deriving DecidableEq, Repr

/-- Prepend one emitted byte to a straight-line result. -/
def SRes.consEmit (b : Nat) : SRes → SRes
  | SRes.ok e m => SRes.ok (b :: e) m
  | SRes.needsInput e m => SRes.needsInput (b :: e) m
  | SRes.panic e => SRes.panic (b :: e)

/-- Straight-line denotation of an instruction list over a machine state,
with the cell and pointer updates of execute; jump instructions do not
occur in bracket-free programs and are mapped to a panic. -/
def execList : List Instruction → MState → SRes
  | [], m => SRes.ok [] m
  | i :: L, m =>
    match i with
    | Instruction.Add n =>
      match m.memory.get? m.position with
      | some v =>
        execList L { m with memory := m.memory.set m.position (min (v + n) 255) }
      | none => SRes.panic []
    | Instruction.Sub n =>
      match m.memory.get? m.position with
      | some v =>
        execList L { m with memory := m.memory.set m.position (v - n) }
      | none => SRes.panic []
    | Instruction.MoveRight n =>
      execList L { m with position := min (m.position + n) USIZE_MAX }
    | Instruction.MoveLeft n =>
      execList L { m with position := m.position - n }
    | Instruction.Output =>
      match m.memory.get? m.position with
      | some v => (execList L m).consEmit v
      | none => SRes.panic []
    | Instruction.Input =>
      match m.input.getLast? with
      | some b =>
        match m.memory.get? m.position with
        | some _ =>
          execList L { m with memory := m.memory.set m.position b,
                              input := m.input.dropLast }
        | none => SRes.panic []
      | none => SRes.needsInput [] m
    | Instruction.Jump _ => SRes.panic []
    | Instruction.JumpBack _ => SRes.panic []

/-- Observable projection of a run result: emitted bytes, terminal status
and final machine state; fuel exhaustion has no observation. -/
def RunResult.toSRes : RunResult → Option SRes
  | RunResult.done e s => some (SRes.ok e ⟨s.memory, s.position, s.input⟩)
  | RunResult.needsInput e s =>
    some (SRes.needsInput e ⟨s.memory, s.position, s.input⟩)
  | RunResult.panic e => some (SRes.panic e)
  | RunResult.fuelOut _ _ => none

/-- The projection commutes with prepending an emission. -/
theorem toSRes_consEmit (b : Nat) (r : RunResult) :
    (r.consEmit b).toSRes = r.toSRes.map (SRes.consEmit b) := by
  cases r <;> rfl

/-- A successful lookup splits the dropped suffix. -/
theorem drop_cons_of_get? {α : Type} (l : List α) (n : Nat) (a : α)
    (h : l.get? n = some a) : l.drop n = a :: l.drop (n + 1) := by
  apply List.ext
  intro j
  cases j with
  | zero =>
    rw [List.get?_drop]
    simpa using h
  | succ j2 =>
    rw [List.get?_drop]
    show l.get? (n + (j2 + 1)) = (l.drop (n + 1)).get? j2
    rw [List.get?_drop]
    congr 1
    omega

/-- The driver stops cleanly at the end of the program. -/
theorem runTrace_halt (s : Interpreter) (f : Nat)
    (hins : s.instructions.get? s.pc = none) :
    s.runTrace (f + 1) = RunResult.done [] s := by
  conv_lhs => rw [Interpreter.runTrace]
  rw [hins]

/-- One step of the straight-line denotation agrees with execute on every
non-bracket instruction. -/
theorem execute_execList (instr : Instruction) (hbr : isBracket instr = false)
    (s : Interpreter) (L : List Instruction) :
    execList (instr :: L) ⟨s.memory, s.position, s.input⟩ =
      match instr.execute s with
      | none => SRes.panic []
      | some (none, s2) => execList L ⟨s2.memory, s2.position, s2.input⟩
      | some (some (Output.Output b), s2) =>
        (execList L ⟨s2.memory, s2.position, s2.input⟩).consEmit b
      | some (some Output.Input, s2) =>
        SRes.needsInput [] ⟨s2.memory, s2.position, s2.input⟩
      | some (some Output.End, _) => SRes.panic [] := by
  cases instr <;> simp only [Instruction.execute, execList] <;> (repeat' split) <;>
    (try rfl) <;> (try simp_all [isBracket]) <;>
    (try (rename_i hlast; cases hlast)) <;> (try rfl) <;>
    (try exact ⟨rfl, rfl, rfl⟩)

/-- A silent execution of a non-bracket instruction does not move the
program counter. -/
theorem execute_silent_pc (instr : Instruction) (hbr : isBracket instr = false)
    (s s2 : Interpreter) (hex : instr.execute s = some (none, s2)) :
    s2.pc = s.pc := by
  cases instr <;> simp only [Instruction.execute] at hex <;>
    (repeat' split at hex) <;> (try cases hex) <;>
    first
    | rfl
    | simp_all [isBracket]

/-- An emission leaves the state untouched. -/
theorem execute_emit_state (instr : Instruction) (s : Interpreter) (b : Nat)
    (s2 : Interpreter)
    (hex : instr.execute s = some (some (Output.Output b), s2)) : s2 = s := by
  cases instr <;> simp only [Instruction.execute] at hex <;>
    (repeat' split at hex) <;> (try cases hex) <;>
    first
    | rfl
    | simp_all

/-- execute never produces the End event; End is produced by poll and the
driver when the program counter passes the end. -/
theorem execute_no_end (instr : Instruction) (s s2 : Interpreter) :
    instr.execute s ≠ some (some Output.End, s2) := by
  intro hex
  cases instr <;> simp only [Instruction.execute] at hex <;>
    (repeat' split at hex) <;> simp_all

/-- Bridge from the driver to the straight-line denotation: on a
bracket-free program with enough fuel, the observation of the driver run
from any program counter is the denotation of the remaining instruction
suffix. -/
theorem runTrace_bridge : ∀ (f : Nat) (s : Interpreter),
    (∀ j ∈ s.instructions, isBracket j = false) →
    s.instructions.length - s.pc < f →
    (s.runTrace f).toSRes =
      some (execList (s.instructions.drop s.pc)
        ⟨s.memory, s.position, s.input⟩) := by
  intro f
  induction f with
  | zero =>
    intro s _ hf
    omega
  | succ f ih =>
    intro s hnj hf
    cases hins : s.instructions.get? s.pc with
    | none =>
      have hlen : s.instructions.length ≤ s.pc := List.get?_eq_none.mp hins
      rw [runTrace_halt s f hins, List.drop_eq_nil_of_le hlen]
      rfl
    | some instr =>
      have hbr : isBracket instr = false := hnj instr (List.get?_mem hins)
      have hpc : s.pc < s.instructions.length := (List.get?_eq_some.mp hins).1
      rw [drop_cons_of_get? s.instructions s.pc instr hins,
        execute_execList instr hbr { s with pc := s.pc + 1 },
        runTrace_step s f instr hins]
      cases hex : instr.execute { s with pc := s.pc + 1 } with
      | none => rfl
      | some r =>
        obtain ⟨e, s2⟩ := r
        have hinstr2 : s2.instructions = s.instructions :=
          Instruction.execute_instructions instr _ _ hex
        cases e with
        | none =>
          have hpc2 : s2.pc = s.pc + 1 :=
            execute_silent_pc instr hbr _ _ hex
          have hrec := ih s2 (by rw [hinstr2]; exact hnj)
            (by rw [hinstr2, hpc2]; omega)
          rw [hinstr2, hpc2] at hrec
          exact hrec
        | some o =>
          cases o with
          | Output b =>
            have hs2 : s2 = { s with pc := s.pc + 1 } :=
              execute_emit_state instr _ b s2 hex
            subst hs2
            have hrec := ih { s with pc := s.pc + 1 } (fun j hj => hnj j hj)
              (by show s.instructions.length - (s.pc + 1) < f; omega)
            rw [toSRes_consEmit, hrec]
            rfl
          | Input => rfl
          | End => exact absurd hex (execute_no_end instr _ s2)

/-- Jump resolution on a bracket-free stream returns the stream
unchanged. -/
theorem update_jumps_loop_nobracket :
    ∀ (rem A : List Instruction) (i : Nat),
    (∀ j ∈ rem, isBracket j = false) →
    update_jumps_loop A i [] rem = Except.ok A := by
  intro rem
  induction rem with
  | nil => intro A i _; rfl
  | cons j rest ih =>
    intro A i h
    have hj := h j (List.mem_cons_self j rest)
    cases j <;>
      first
      | exact ih A (i + 1) (fun x hx => h x (List.mem_cons_of_mem _ hx))
      | simp [isBracket] at hj

/-- If folding rejects a byte, it leaves the instruction unchanged. -/
theorem update_with_false_snd (i : Instruction) (c : Char)
    (h : (i.update_with c).1 = false) : (i.update_with c).2 = i := by
  cases i <;> unfold Instruction.update_with <;> (repeat' split) <;>
    simp_all [Instruction.update_with]

/-- Two characters whose folds cancel each other. -/
def opp (a b : Char) : Bool :=
  (a = '+' && b = '-') || (a = '-' && b = '+') ||
  (a = '>' && b = '<') || (a = '<' && b = '>')

/-- Executable check that no two adjacent source characters fold against
each other. -/
def noAdjOpp : List Char → Bool
  | [] => true
  | [_] => true
  | a :: b :: rest => !(opp a b) && noAdjOpp (b :: rest)

/-- The four characters folded by run-length counting. -/
def isArithChar (c : Char) : Bool :=
  c = '+' || c = '-' || c = '>' || c = '<'

/-- The six characters that compile to non-bracket instructions. -/
def isSixChar (c : Char) : Bool :=
  c = '+' || c = '-' || c = '>' || c = '<' || c = '.' || c = ','

/-- A character together with the instruction family it folds into: folding
the same character bumps the count (modulo 256), and folding stops at every
character that is neither the same nor its opposite. -/
structure RunChar (c : Char) (mk : Nat → Instruction) : Prop where
  upd_same : ∀ n, (mk n).update_with c = (true, mk ((n + 1) % 256))
  upd_stop : ∀ n d, d ≠ c → opp c d = false → ((mk n).update_with d).1 = false
  mk_nonbracket : ∀ n, isBracket (mk n) = false

/-- The plus character folds into Add. -/
theorem runChar_plus : RunChar '+' Instruction.Add := by
  refine ⟨fun n => rfl, ?_, fun n => rfl⟩
  intro n d hd hop
  unfold Instruction.update_with
  (repeat' split) <;> simp_all [opp]

/-- The minus character folds into Sub. -/
theorem runChar_minus : RunChar '-' Instruction.Sub := by
  refine ⟨fun n => rfl, ?_, fun n => rfl⟩
  intro n d hd hop
  unfold Instruction.update_with
  (repeat' split) <;> simp_all [opp]

/-- The right arrow folds into MoveRight. -/
theorem runChar_right : RunChar '>' Instruction.MoveRight := by
  refine ⟨fun n => rfl, ?_, fun n => rfl⟩
  intro n d hd hop
  unfold Instruction.update_with
  (repeat' split) <;> simp_all [opp]

/-- The left arrow folds into MoveLeft. -/
theorem runChar_left : RunChar '<' Instruction.MoveLeft := by
  refine ⟨fun n => rfl, ?_, fun n => rfl⟩
  intro n d hd hop
  unfold Instruction.update_with
  (repeat' split) <;> simp_all [opp]

/-- Folding a uniform run of j identical characters, not followed by the
same or an opposite character, adds exactly j to the count as long as the
count stays below 256. -/
theorem parseRun_uniform (c : Char) (mk : Nat → Instruction)
    (hc : RunChar c mk) :
    ∀ (j : Nat) (rest : List Char) (n : Nat),
    (∀ d, rest.head? = some d → d ≠ c ∧ opp c d = false) →
    n + j ≤ 255 →
    parseRun (mk n) (List.replicate j c ++ rest) n = (n + j, mk (n + j)) := by
  intro j
  induction j with
  | zero =>
    intro rest n hhead _
    cases rest with
    | nil => rfl
    | cons d ds =>
      obtain ⟨hd, hop⟩ := hhead d rfl
      show parseRun (mk n) (d :: ds) n = (n, mk n)
      unfold parseRun
      cases hu : (mk n).update_with d with
      | mk accepted i2 =>
        cases accepted with
        | true =>
          have := hc.upd_stop n d hd hop
          rw [hu] at this
          simp at this
        | false => rfl
  | succ j2 ih =>
    intro rest n hhead hle
    show parseRun (mk n) (c :: (List.replicate j2 c ++ rest)) n = _
    unfold parseRun
    rw [hc.upd_same n]
    have hmod : (n + 1) % 256 = n + 1 := Nat.mod_eq_of_lt (by omega)
    rw [hmod]
    show parseRun (mk (n + 1)) (List.replicate j2 c ++ rest) (n + 1) = _
    rw [ih rest (n + 1) hhead (by omega)]
    have harith : n + 1 + j2 = n + (j2 + 1) := by omega
    rw [harith]

/-- The head instruction acts identically on both sides of an execList
congruence. -/
theorem execList_cons_congr (j : Instruction) (L1 L2 : List Instruction)
    (h : ∀ m, execList L1 m = execList L2 m) :
    ∀ m, execList (j :: L1) m = execList (j :: L2) m := by
  intro m
  cases j <;> simp only [execList] <;> (repeat' split) <;>
    first
    | rfl
    | rw [h _]

/-- Reading back the cell just written. -/
theorem get?_set_self (l : List Nat) (p : Nat) (x v : Nat)
    (h : l.get? p = some v) : (l.set p x).get? p = some x := by
  rw [List.get?_set, if_pos rfl, h]
  rfl

/-- A run of k unit Add instructions denotes the same as one Add k. -/
theorem execList_run_add : ∀ (k : Nat) (L : List Instruction) (m : MState),
    1 ≤ k →
    execList (List.replicate k (Instruction.Add 1) ++ L) m =
      execList (Instruction.Add k :: L) m := by
  intro k
  induction k with
  | zero => intro L m h; omega
  | succ k2 ih =>
    intro L m _
    by_cases hk : k2 = 0
    · subst hk; rfl
    · show execList (Instruction.Add 1 ::
        (List.replicate k2 (Instruction.Add 1) ++ L)) m = _
      cases hv : m.memory.get? m.position with
      | none => simp only [execList, hv]
      | some v =>
        simp only [execList, hv]
        rw [ih _ _ (by omega)]
        have hv2 := get?_set_self m.memory m.position (min (v + 1) 255) v hv
        simp only [execList, hv2]
        rw [List.set_set]
        have harith : min (min (v + 1) 255 + k2) 255 = min (v + (k2 + 1)) 255 := by
          omega
        rw [harith]

/-- A run of k unit Sub instructions denotes the same as one Sub k. -/
theorem execList_run_sub : ∀ (k : Nat) (L : List Instruction) (m : MState),
    1 ≤ k →
    execList (List.replicate k (Instruction.Sub 1) ++ L) m =
      execList (Instruction.Sub k :: L) m := by
  intro k
  induction k with
  | zero => intro L m h; omega
  | succ k2 ih =>
    intro L m _
    by_cases hk : k2 = 0
    · subst hk; rfl
    · show execList (Instruction.Sub 1 ::
        (List.replicate k2 (Instruction.Sub 1) ++ L)) m = _
      cases hv : m.memory.get? m.position with
      | none => simp only [execList, hv]
      | some v =>
        simp only [execList, hv]
        rw [ih _ _ (by omega)]
        have hv2 := get?_set_self m.memory m.position (v - 1) v hv
        simp only [execList, hv2]
        rw [List.set_set]
        have harith : v - 1 - k2 = v - (k2 + 1) := by omega
        rw [harith]

/-- A run of k unit MoveRight instructions denotes the same as one
MoveRight k. -/
theorem execList_run_right : ∀ (k : Nat) (L : List Instruction) (m : MState),
    1 ≤ k →
    execList (List.replicate k (Instruction.MoveRight 1) ++ L) m =
      execList (Instruction.MoveRight k :: L) m := by
  intro k
  induction k with
  | zero => intro L m h; omega
  | succ k2 ih =>
    intro L m _
    by_cases hk : k2 = 0
    · subst hk; rfl
    · show execList (Instruction.MoveRight 1 ::
        (List.replicate k2 (Instruction.MoveRight 1) ++ L)) m = _
      simp only [execList]
      rw [ih _ _ (by omega)]
      simp only [execList]
      have hM : USIZE_MAX = 18446744073709551615 := by norm_num [USIZE_MAX]
      have harith : min (min (m.position + 1) USIZE_MAX + k2) USIZE_MAX =
          min (m.position + (k2 + 1)) USIZE_MAX := by
        rw [hM]
        omega
      rw [harith]

/-- A run of k unit MoveLeft instructions denotes the same as one
MoveLeft k. -/
theorem execList_run_left : ∀ (k : Nat) (L : List Instruction) (m : MState),
    1 ≤ k →
    execList (List.replicate k (Instruction.MoveLeft 1) ++ L) m =
      execList (Instruction.MoveLeft k :: L) m := by
  intro k
  induction k with
  | zero => intro L m h; omega
  | succ k2 ih =>
    intro L m _
    by_cases hk : k2 = 0
    · subst hk; rfl
    · show execList (Instruction.MoveLeft 1 ::
        (List.replicate k2 (Instruction.MoveLeft 1) ++ L)) m = _
      simp only [execList]
      rw [ih _ _ (by omega)]
      simp only [execList]
      have harith : m.position - 1 - k2 = m.position - (k2 + 1) := by omega
      rw [harith]

/-- The unfolded program: one instruction per source character, with no
run-length folding. -/
def unfoldedProgram : List Char → Option (List Instruction)
  | [] => some []
  | c :: cs =>
    match Instruction.from_byte c with
    | none => none
    | some i =>
      match unfoldedProgram cs with
      | none => none
      | some rest => some (i :: rest)

/-- The unfolded program of a uniform run is the run of unit
instructions. -/
theorem unfoldedProgram_replicate (c : Char) (i1 : Instruction)
    (hfb : Instruction.from_byte c = some i1) :
    ∀ (j : Nat) (rest : List Char) (U : List Instruction),
    unfoldedProgram rest = some U →
    unfoldedProgram (List.replicate j c ++ rest) =
      some (List.replicate j i1 ++ U) := by
  intro j
  induction j with
  | zero =>
    intro rest U h
    simpa using h
  | succ j2 ih =>
    intro rest U h
    show unfoldedProgram (c :: (List.replicate j2 c ++ rest)) = _
    unfold unfoldedProgram
    rw [hfb, ih rest U h]
    rfl

/-- Dropping as many elements as the accepted prefix leaves the rejected
suffix. -/
theorem drop_length_takeWhile {α : Type} (p : α → Bool) (l : List α) :
    l.drop (l.takeWhile p).length = l.dropWhile p := by
  induction l with
  | nil => rfl
  | cons a t ih =>
    by_cases hp : p a = true
    · simp [List.takeWhile, List.dropWhile, hp, ih]
    · simp [List.takeWhile, List.dropWhile, hp]

/-- The last element of a non-empty uniform run. -/
theorem getLast?_replicate_succ {α : Type} (n : Nat) (a : α) :
    (List.replicate (n + 1) a).getLast? = some a := by
  rw [List.replicate_succ']
  exact List.getLast?_concat _

/-- One unfolding of the scan loop at a recognized character. -/
theorem compileLoop_cons_eq (f idx : Nat) (c : Char) (cs : List Char)
    (i : Instruction) (hfb : Instruction.from_byte c = some i) :
    compileLoop (f + 1) (c :: cs) idx =
      match compileLoop f (cs.drop ((parseRun i cs 1).1 - 1))
          (idx + (parseRun i cs 1).1) with
      | Except.ok rest => Except.ok ((parseRun i cs 1).2 :: rest)
      | Except.error e => Except.error e := by
  conv_lhs => rw [compileLoop]
  rw [hfb]

/-- The step of the folding equivalence at an arithmetic character: the
whole uniform run folds into one counted instruction, which denotes the
same as the run of unit instructions in the unfolded program. -/
theorem fold_equiv_arith_step
    (c : Char) (mk : Nat → Instruction) (hc : RunChar c mk)
    (hfb : Instruction.from_byte c = some (mk 1))
    (hrunlem : ∀ (k : Nat) (L : List Instruction) (m : MState), 1 ≤ k →
      execList (List.replicate k (mk 1) ++ L) m = execList (mk k :: L) m)
    (f : Nat) (cs : List Char) (idx : Nat)
    (hlen : (c :: cs).length ≤ f + 1)
    (hsix : ∀ d ∈ (c :: cs), isSixChar d = true)
    (hchain : List.Chain' (fun a b => opp a b = false) (c :: cs))
    (hinf : ∀ d ∈ (['+', '-', '>', '<'] : List Char),
      ¬ (List.replicate 256 d <:+: (c :: cs)))
    (hcarith : c ∈ (['+', '-', '>', '<'] : List Char))
    (IH : ∀ (src2 : List Char) (idx2 : Nat), src2.length ≤ f →
      (∀ d ∈ src2, isSixChar d = true) →
      List.Chain' (fun a b => opp a b = false) src2 →
      (∀ d ∈ (['+', '-', '>', '<'] : List Char),
        ¬ (List.replicate 256 d <:+: src2)) →
      ∃ F U, compileLoop f src2 idx2 = Except.ok F ∧
        unfoldedProgram src2 = some U ∧
        (∀ j ∈ F, isBracket j = false) ∧ (∀ j ∈ U, isBracket j = false) ∧
        (∀ m, execList F m = execList U m)) :
    ∃ F U, compileLoop (f + 1) (c :: cs) idx = Except.ok F ∧
      unfoldedProgram (c :: cs) = some U ∧
      (∀ j ∈ F, isBracket j = false) ∧ (∀ j ∈ U, isBracket j = false) ∧
      (∀ m, execList F m = execList U m) := by
  have htake : cs.takeWhile (fun d => decide (d = c)) =
      List.replicate (cs.takeWhile (fun d => decide (d = c))).length c := by
    rw [List.eq_replicate]
    refine ⟨rfl, fun b hb => ?_⟩
    have hpb := List.mem_takeWhile_imp hb
    simpa using hpb
  have hcs : cs = List.replicate (cs.takeWhile (fun d => decide (d = c))).length c ++
      cs.dropWhile (fun d => decide (d = c)) := by
    conv_lhs =>
      rw [← List.takeWhile_append_dropWhile (fun d => decide (d = c)) cs, htake]
  have hsrc2 : c :: cs =
      List.replicate ((cs.takeWhile (fun d => decide (d = c))).length + 1) c ++
        cs.dropWhile (fun d => decide (d = c)) := by
    conv_lhs => rw [hcs]
    rw [List.replicate_succ, List.cons_append]
  have hchain2 : List.Chain' (fun a b => opp a b = false)
      (List.replicate ((cs.takeWhile (fun d => decide (d = c))).length + 1) c ++
        cs.dropWhile (fun d => decide (d = c))) := by
    rw [← hsrc2]
    exact hchain
  obtain ⟨-, hchainrest, hbound⟩ := List.chain'_append.mp hchain2
  have hk255 : (cs.takeWhile (fun d => decide (d = c))).length + 1 ≤ 255 := by
    by_contra hgt
    have hsplit : (cs.takeWhile (fun d => decide (d = c))).length + 1 =
        256 + ((cs.takeWhile (fun d => decide (d = c))).length + 1 - 256) := by
      omega
    have hinfix : List.replicate 256 c <:+: (c :: cs) := by
      refine ⟨[], List.replicate
        ((cs.takeWhile (fun d => decide (d = c))).length + 1 - 256) c ++
          cs.dropWhile (fun d => decide (d = c)), ?_⟩
      rw [List.nil_append, hsrc2]
      conv_rhs => rw [hsplit]
      rw [List.replicate_add, List.append_assoc]
    exact absurd hinfix (hinf c hcarith)
  have hhead : ∀ d, (cs.dropWhile (fun d => decide (d = c))).head? = some d →
      d ≠ c ∧ opp c d = false := by
    intro d hd
    constructor
    · have hh := List.head?_dropWhile_not (fun d => decide (d = c)) cs
      rw [hd] at hh
      exact of_decide_eq_false hh
    · exact hbound c
        (Option.mem_def.mpr (getLast?_replicate_succ _ c)) d
        (Option.mem_def.mpr hd)
  have hpr : parseRun (mk 1) cs 1 =
      ((cs.takeWhile (fun d => decide (d = c))).length + 1,
       mk ((cs.takeWhile (fun d => decide (d = c))).length + 1)) := by
    conv_lhs => rw [hcs]
    rw [parseRun_uniform c mk hc _ _ 1 hhead (by omega)]
    rw [Nat.add_comm 1 ((cs.takeWhile (fun d => decide (d = c))).length)]
  have hlencs : cs.length =
      (cs.takeWhile (fun d => decide (d = c))).length +
        (cs.dropWhile (fun d => decide (d = c))).length := by
    conv_lhs => rw [hcs]
    rw [List.length_append, List.length_replicate]
  obtain ⟨F', U', hF', hU', hnjF', hnjU', hEq⟩ :=
    IH (cs.dropWhile (fun d => decide (d = c)))
      (idx + ((cs.takeWhile (fun d => decide (d = c))).length + 1))
      (by simp only [List.length_cons] at hlen; omega)
      (fun d hd => hsix d (List.mem_cons_of_mem c
        (hcs ▸ List.mem_append_right _ hd)))
      hchainrest
      (fun d hd hq => hinf d hd (hq.trans
        (((List.dropWhile_suffix _).trans (List.suffix_cons c cs)).isInfix)))
  refine ⟨mk ((cs.takeWhile (fun d => decide (d = c))).length + 1) :: F',
    mk 1 :: (List.replicate (cs.takeWhile (fun d => decide (d = c))).length
      (mk 1) ++ U'), ?_, ?_, ?_, ?_, ?_⟩
  · rw [compileLoop_cons_eq f idx c cs (mk 1) hfb, hpr]
    dsimp only
    rw [Nat.add_sub_cancel, drop_length_takeWhile, hF']
  · have hUcs : unfoldedProgram cs =
        some (List.replicate (cs.takeWhile (fun d => decide (d = c))).length
          (mk 1) ++ U') := by
      conv_lhs => rw [hcs]
      exact unfoldedProgram_replicate c (mk 1) hfb _ _ U' hU'
    unfold unfoldedProgram
    rw [hfb, hUcs]
  · intro j hj
    rcases List.mem_cons.mp hj with hj | hj
    · subst hj; exact hc.mk_nonbracket _
    · exact hnjF' j hj
  · intro j hj
    rcases List.mem_cons.mp hj with hj | hj
    · subst hj; exact hc.mk_nonbracket 1
    · rcases List.mem_append.mp hj with hj | hj
      · rw [List.eq_of_mem_replicate hj]; exact hc.mk_nonbracket 1
      · exact hnjU' j hj
  · intro m
    have h1 := hrunlem ((cs.takeWhile (fun d => decide (d = c))).length + 1)
      U' m (by omega)
    have h2 : execList (mk 1 ::
        (List.replicate (cs.takeWhile (fun d => decide (d = c))).length
          (mk 1) ++ U')) m =
        execList (List.replicate
          ((cs.takeWhile (fun d => decide (d = c))).length + 1) (mk 1) ++ U') m := by
      rw [List.replicate_succ, List.cons_append]
    rw [h2, h1]
    exact execList_cons_congr _ _ _ hEq m

/-- The step of the folding equivalence at a dot or comma: the character
compiles to a single non-foldable instruction on both sides. -/
theorem fold_equiv_io_step
    (c : Char) (i1 : Instruction)
    (hfb : Instruction.from_byte c = some i1)
    (hna : isArith i1 = false) (hnb : isBracket i1 = false)
    (f : Nat) (cs : List Char) (idx : Nat)
    (hsix : ∀ d ∈ (c :: cs), isSixChar d = true)
    (hchain : List.Chain' (fun a b => opp a b = false) (c :: cs))
    (hinf : ∀ d ∈ (['+', '-', '>', '<'] : List Char),
      ¬ (List.replicate 256 d <:+: (c :: cs)))
    (hlen : (c :: cs).length ≤ f + 1)
    (IH : ∀ (src2 : List Char) (idx2 : Nat), src2.length ≤ f →
      (∀ d ∈ src2, isSixChar d = true) →
      List.Chain' (fun a b => opp a b = false) src2 →
      (∀ d ∈ (['+', '-', '>', '<'] : List Char),
        ¬ (List.replicate 256 d <:+: src2)) →
      ∃ F U, compileLoop f src2 idx2 = Except.ok F ∧
        unfoldedProgram src2 = some U ∧
        (∀ j ∈ F, isBracket j = false) ∧ (∀ j ∈ U, isBracket j = false) ∧
        (∀ m, execList F m = execList U m)) :
    ∃ F U, compileLoop (f + 1) (c :: cs) idx = Except.ok F ∧
      unfoldedProgram (c :: cs) = some U ∧
      (∀ j ∈ F, isBracket j = false) ∧ (∀ j ∈ U, isBracket j = false) ∧
      (∀ m, execList F m = execList U m) := by
  obtain ⟨F', U', hF', hU', hnjF', hnjU', hEq⟩ :=
    IH cs (idx + 1)
      (by simp only [List.length_cons] at hlen; omega)
      (fun d hd => hsix d (List.mem_cons_of_mem c hd))
      hchain.tail
      (fun d hd hq => hinf d hd (hq.trans
        ((List.suffix_cons c cs).isInfix)))
  refine ⟨i1 :: F', i1 :: U', ?_, ?_, ?_, ?_, ?_⟩
  · rw [compileLoop_cons_eq f idx c cs i1 hfb,
      parseRun_of_not_arith i1 cs 1 hna]
    dsimp only
    rw [Nat.sub_self, List.drop_zero, hF']
  · unfold unfoldedProgram
    rw [hfb, hU']
  · intro j hj
    rcases List.mem_cons.mp hj with hj | hj
    · subst hj; exact hnb
    · exact hnjF' j hj
  · intro j hj
    rcases List.mem_cons.mp hj with hj | hj
    · subst hj; exact hnb
    · exact hnjU' j hj
  · exact execList_cons_congr i1 F' U' hEq

/-- The folding equivalence: on a bracket-free source whose adjacent
characters never fold against each other and whose uniform runs stay below
256, the scan succeeds, the unfolded per-character program exists, both are
bracket-free, and they have the same straight-line denotation from every
machine state. -/
theorem fold_equiv_aux : ∀ (fuel : Nat) (src : List Char) (idx : Nat),
    src.length ≤ fuel →
    (∀ c ∈ src, isSixChar c = true) →
    List.Chain' (fun a b => opp a b = false) src →
    (∀ c ∈ (['+', '-', '>', '<'] : List Char),
      ¬ (List.replicate 256 c <:+: src)) →
    ∃ F U, compileLoop fuel src idx = Except.ok F ∧
      unfoldedProgram src = some U ∧
      (∀ j ∈ F, isBracket j = false) ∧ (∀ j ∈ U, isBracket j = false) ∧
      (∀ m, execList F m = execList U m) := by
  intro fuel
  induction fuel with
  | zero =>
    intro src idx hlen _ _ _
    cases src with
    | nil => exact ⟨[], [], rfl, rfl, by simp, by simp, fun _ => rfl⟩
    | cons c cs => simp at hlen
  | succ f ih =>
    intro src idx hlen hsix hchain hinf
    cases src with
    | nil => exact ⟨[], [], rfl, rfl, by simp, by simp, fun _ => rfl⟩
    | cons c cs =>
      have hc6 : isSixChar c = true := hsix c (List.mem_cons_self c cs)
      have hcases : ((((c = '+' ∨ c = '-') ∨ c = '>') ∨ c = '<') ∨ c = '.') ∨
          c = ',' := by
        simpa [isSixChar] using hc6
      rcases hcases with ⟨⟨⟨⟨hcq | hcq⟩ | hcq⟩ | hcq⟩ | hcq⟩ | hcq <;> subst hcq
      · exact fold_equiv_arith_step '+' Instruction.Add runChar_plus rfl
          execList_run_add f cs idx hlen hsix hchain hinf (by decide) ih
      · exact fold_equiv_arith_step '-' Instruction.Sub runChar_minus rfl
          execList_run_sub f cs idx hlen hsix hchain hinf (by decide) ih
      · exact fold_equiv_arith_step '>' Instruction.MoveRight runChar_right rfl
          execList_run_right f cs idx hlen hsix hchain hinf (by decide) ih
      · exact fold_equiv_arith_step '<' Instruction.MoveLeft runChar_left rfl
          execList_run_left f cs idx hlen hsix hchain hinf (by decide) ih
      · exact fold_equiv_io_step '.' Instruction.Output rfl rfl rfl
          f cs idx hsix hchain hinf hlen ih
      · exact fold_equiv_io_step ',' Instruction.Input rfl rfl rfl
          f cs idx hsix hchain hinf hlen ih

/-- Compile a source with with_str from the fresh interpreter, feed the
input, and drive the run to completion with fuel one past the program
length (enough for every bracket-free program). -/
def foldedRun (src : List Char) (input : List Nat) : Option RunResult :=
  match Interpreter.new.with_str src with
  | Except.ok s =>
    some ((s.appendInput input).runTrace (s.instructions.length + 1))
  | Except.error _ => none

/-- Build the unfolded character-by-character program, resolve its jumps,
feed the input, and drive the run to completion the same way. -/
def unfoldedRun (src : List Char) (input : List Nat) : Option RunResult :=
  match unfoldedProgram src with
  | none => none
  | some U =>
    match Instruction.update_jumps U with
    | Except.error _ => none
    | Except.ok U2 =>
      some ((({ Interpreter.new with instructions := U2 }).appendInput
        input).runTrace (U2.length + 1))

/-- Observation of an optional run: emitted bytes, status, final memory,
position and remaining input. -/
def runObs (r : Option RunResult) : Option SRes :=
  r.bind RunResult.toSRes

/-- The emitted bytes of a run result. -/
def RunResult.emitsOf : RunResult → List Nat
  | RunResult.done e _ => e
  | RunResult.needsInput e _ => e
  | RunResult.panic e => e
  | RunResult.fuelOut e _ => e

/-- C2 counterexample: on the source comma plus minus dot with the single
input byte 255, the folded program collapses the plus minus pair into
Add 0 and emits 255, while the unfolded character-by-character program
saturates at 255 and then subtracts, emitting 254: run-length folding is
not semantically transparent on the code. -/
theorem C2_counterexample :
    (foldedRun [',', '+', '-', '.'] [255]).map RunResult.emitsOf =
      some [255] ∧
    (unfoldedRun [',', '+', '-', '.'] [255]).map RunResult.emitsOf =
      some [254] ∧
    (some [255] : Option (List Nat)) ≠ some [254] := by
  refine ⟨by decide, by decide, by decide⟩

theorem noAdjOpp_chain' : ∀ l : List Char, noAdjOpp l = true →
    List.Chain' (fun a b => opp a b = false) l
  | [], _ => List.chain'_nil
  | [a], _ => List.chain'_singleton a
  | a :: b :: rest, h => by
    simp only [noAdjOpp, Bool.and_eq_true, Bool.not_eq_true'] at h
    exact List.chain'_cons.mpr ⟨h.1, noAdjOpp_chain' (b :: rest) h.2⟩


/-! Syntactic expansion of a folded program into the unfolded
character-by-character program. Each folded arithmetic instruction with
count n stands for n unit instructions; every other instruction stands for
itself. offsetE maps a folded instruction index to the index of its first
unfolded instruction. -/

/-- Length in unfolded unit instructions of one folded instruction: the
count for the four arithmetic instructions, one for everything else. -/
def exLen : Instruction → Nat
  | Instruction.Add n => n
  | Instruction.Sub n => n
  | Instruction.MoveRight n => n
  | Instruction.MoveLeft n => n
  | _ => 1

/-- Expansion of one folded instruction into the unfolded unit instructions
it stands for, keeping bracket targets unchanged. -/
def expandOne : Instruction → List Instruction
  | Instruction.Add n => List.replicate n (Instruction.Add 1)
  | Instruction.Sub n => List.replicate n (Instruction.Sub 1)
  | Instruction.MoveRight n => List.replicate n (Instruction.MoveRight 1)
  | Instruction.MoveLeft n => List.replicate n (Instruction.MoveLeft 1)
  | i => [i]

/-- Expansion of one folded instruction with bracket targets remapped from
folded instruction indices to unfolded instruction indices. -/
def expandRes (ph : Nat → Nat) : Instruction → List Instruction
  | Instruction.Jump t => [Instruction.Jump (ph t)]
  | Instruction.JumpBack t => [Instruction.JumpBack (ph t)]
  | i => expandOne i

/-- Index in the unfolded program of the start of folded instruction j: the
sum of the expansion lengths of the folded instructions before j. -/
def offsetE (E : List Nat) (j : Nat) : Nat := (E.take j).sum

/-- The expansion length of every instruction agrees with exLen. -/
theorem length_expandOne (i : Instruction) : (expandOne i).length = exLen i := by
  cases i <;> simp [expandOne, exLen]

/-- The remapped expansion has the same length as the plain expansion. -/
theorem length_expandRes (ph : Nat → Nat) (i : Instruction) :
    (expandRes ph i).length = exLen i := by
  cases i <;> simp [expandRes, expandOne, exLen]

/-- Writing back the value already stored leaves the list unchanged. -/
theorem set_of_get? {α : Type} (l : List α) (p : Nat) (v : α)
    (h : l.get? p = some v) : l.set p v = l := by
  apply List.ext
  intro j
  rw [List.get?_set]
  split
  next heq => subst heq; rw [h]; rfl
  next => rfl

/-- The offset of the next folded instruction adds its expansion length. -/
theorem offsetE_succ (E : List Nat) (p k : Nat) (h : E.get? p = some k) :
    offsetE E (p + 1) = offsetE E p + k := by
  unfold offsetE
  rw [List.take_succ, ← List.get?_eq_getElem?, h]
  simp

/-- Beyond the folded program the offset is the total expansion length. -/
theorem offsetE_of_le (E : List Nat) (p : Nat) (h : E.length ≤ p) :
    offsetE E p = E.sum := by
  unfold offsetE
  rw [List.take_of_length_le h]

/-- Every bracket produced by the compilation scan still carries the
placeholder target zero. -/
theorem compile_targets_zero : ∀ (fuel : Nat) (src : List Char) (idx : Nat)
    (F : List Instruction), compileLoop fuel src idx = Except.ok F →
    ∀ j ∈ F, isBracket j = true →
      j = Instruction.Jump 0 ∨ j = Instruction.JumpBack 0 := by
  intro fuel
  induction fuel with
  | zero =>
    intro src idx F hok j hj _
    cases src with
    | nil =>
      cases hok
      exact absurd hj (List.not_mem_nil j)
    | cons c cs => exact absurd hok (by simp [compileLoop])
  | succ f ih =>
    intro src idx F hok j hj hbr
    cases src with
    | nil =>
      cases hok
      exact absurd hj (List.not_mem_nil j)
    | cons c cs =>
      cases hfb : Instruction.from_byte c with
      | none =>
        have hbad : compileLoop (f + 1) (c :: cs) idx =
            Except.error (CErr.unexpectedChar, idx) := by
          conv_lhs => rw [compileLoop]
          rw [hfb]
        rw [hbad] at hok
        exact absurd hok (by simp)
      | some i =>
        rw [compileLoop_cons_eq f idx c cs i hfb] at hok
        cases hrec : compileLoop f (cs.drop ((parseRun i cs 1).1 - 1))
            (idx + (parseRun i cs 1).1) with
        | error e => rw [hrec] at hok; exact absurd hok (by simp)
        | ok F2 =>
          rw [hrec] at hok
          cases hok
          rcases List.mem_cons.mp hj with hj | hj
          · subst hj
            rw [parseRun_isBracket cs i 1] at hbr
            rcases from_byte_inv c i hfb with
              ⟨-, hiq⟩ | ⟨-, hiq⟩ | ⟨-, hiq⟩ | ⟨-, hiq⟩ |
              ⟨-, hiq⟩ | ⟨-, hiq⟩ | ⟨-, hiq⟩ | ⟨-, hiq⟩ <;> subst hiq
            · simp [isBracket] at hbr
            · simp [isBracket] at hbr
            · simp [isBracket] at hbr
            · simp [isBracket] at hbr
            · simp [isBracket] at hbr
            · simp [isBracket] at hbr
            · rw [parseRun_of_not_arith (Instruction.Jump 0) cs 1 rfl]
              exact Or.inl rfl
            · rw [parseRun_of_not_arith (Instruction.JumpBack 0) cs 1 rfl]
              exact Or.inr rfl
          · exact ih _ _ F2 hrec j hj hbr

/-- The plain expansion of a program whose brackets all carry the
placeholder target zero coincides with the remapped expansion, because the
remap fixes index zero. -/
theorem expandOne_eq_expandRes (E : List Nat) (F : List Instruction)
    (hz : ∀ j ∈ F, isBracket j = true →
      j = Instruction.Jump 0 ∨ j = Instruction.JumpBack 0) :
    F.flatMap expandOne = F.flatMap (expandRes (offsetE E)) := by
  apply List.flatMap_congr
  intro x hx
  cases x with
  | Jump t =>
    rcases hz _ hx rfl with h | h
    · injection h with ht; subst ht; rfl
    · exact absurd h (by simp)
  | JumpBack t =>
    rcases hz _ hx rfl with h | h
    · exact absurd h (by simp)
    · injection h with ht; subst ht; rfl
  | Add n => rfl
  | Sub n => rfl
  | MoveRight n => rfl
  | MoveLeft n => rfl
  | Output => rfl
  | Input => rfl

/-- The step of the syntactic expansion at an arithmetic character: the
whole uniform run folds into one counted instruction whose expansion is
exactly the run of unit instructions of the unfolded program. -/
theorem compile_expand_arith_step
    (c : Char) (mk : Nat → Instruction) (hc : RunChar c mk)
    (hfb : Instruction.from_byte c = some (mk 1))
    (hex : ∀ n, expandOne (mk n) = List.replicate n (mk 1))
    (hlen1 : ∀ n, exLen (mk n) = n)
    (f : Nat) (cs : List Char) (idx : Nat) (F : List Instruction)
    (hchain : List.Chain' (fun a b => opp a b = false) (c :: cs))
    (hinf : ∀ d ∈ (['+', '-', '>', '<'] : List Char),
      ¬ (List.replicate 256 d <:+: (c :: cs)))
    (hcarith : c ∈ (['+', '-', '>', '<'] : List Char))
    (hok : compileLoop (f + 1) (c :: cs) idx = Except.ok F)
    (IH : ∀ (src2 : List Char) (idx2 : Nat) (F2 : List Instruction),
      List.Chain' (fun a b => opp a b = false) src2 →
      (∀ d ∈ (['+', '-', '>', '<'] : List Char),
        ¬ (List.replicate 256 d <:+: src2)) →
      compileLoop f src2 idx2 = Except.ok F2 →
      unfoldedProgram src2 = some (F2.flatMap expandOne) ∧
      ∀ k ∈ F2.map exLen, 1 ≤ k) :
    unfoldedProgram (c :: cs) = some (F.flatMap expandOne) ∧
    ∀ k ∈ F.map exLen, 1 ≤ k := by
  have htake : cs.takeWhile (fun d => decide (d = c)) =
      List.replicate (cs.takeWhile (fun d => decide (d = c))).length c := by
    rw [List.eq_replicate]
    refine ⟨rfl, fun b hb => ?_⟩
    have hpb := List.mem_takeWhile_imp hb
    simpa using hpb
  have hcs : cs = List.replicate (cs.takeWhile (fun d => decide (d = c))).length c ++
      cs.dropWhile (fun d => decide (d = c)) := by
    conv_lhs =>
      rw [← List.takeWhile_append_dropWhile (fun d => decide (d = c)) cs, htake]
  have hsrc2 : c :: cs =
      List.replicate ((cs.takeWhile (fun d => decide (d = c))).length + 1) c ++
        cs.dropWhile (fun d => decide (d = c)) := by
    conv_lhs => rw [hcs]
    rw [List.replicate_succ, List.cons_append]
  have hchain2 : List.Chain' (fun a b => opp a b = false)
      (List.replicate ((cs.takeWhile (fun d => decide (d = c))).length + 1) c ++
        cs.dropWhile (fun d => decide (d = c))) := by
    rw [← hsrc2]
    exact hchain
  obtain ⟨-, hchainrest, hbound⟩ := List.chain'_append.mp hchain2
  have hk255 : (cs.takeWhile (fun d => decide (d = c))).length + 1 ≤ 255 := by
    by_contra hgt
    have hsplit : (cs.takeWhile (fun d => decide (d = c))).length + 1 =
        256 + ((cs.takeWhile (fun d => decide (d = c))).length + 1 - 256) := by
      omega
    have hinfix : List.replicate 256 c <:+: (c :: cs) := by
      refine ⟨[], List.replicate
        ((cs.takeWhile (fun d => decide (d = c))).length + 1 - 256) c ++
          cs.dropWhile (fun d => decide (d = c)), ?_⟩
      rw [List.nil_append, hsrc2]
      conv_rhs => rw [hsplit]
      rw [List.replicate_add, List.append_assoc]
    exact absurd hinfix (hinf c hcarith)
  have hhead : ∀ d, (cs.dropWhile (fun d => decide (d = c))).head? = some d →
      d ≠ c ∧ opp c d = false := by
    intro d hd
    constructor
    · have hh := List.head?_dropWhile_not (fun d => decide (d = c)) cs
      rw [hd] at hh
      exact of_decide_eq_false hh
    · exact hbound c
        (Option.mem_def.mpr (getLast?_replicate_succ _ c)) d
        (Option.mem_def.mpr hd)
  have hpr : parseRun (mk 1) cs 1 =
      ((cs.takeWhile (fun d => decide (d = c))).length + 1,
       mk ((cs.takeWhile (fun d => decide (d = c))).length + 1)) := by
    conv_lhs => rw [hcs]
    rw [parseRun_uniform c mk hc _ _ 1 hhead (by omega)]
    rw [Nat.add_comm 1 ((cs.takeWhile (fun d => decide (d = c))).length)]
  rw [compileLoop_cons_eq f idx c cs (mk 1) hfb, hpr] at hok
  dsimp only at hok
  rw [Nat.add_sub_cancel, drop_length_takeWhile] at hok
  cases hrec : compileLoop f (cs.dropWhile (fun d => decide (d = c)))
      (idx + ((cs.takeWhile (fun d => decide (d = c))).length + 1)) with
  | error e => rw [hrec] at hok; exact absurd hok (by simp)
  | ok F2 =>
    rw [hrec] at hok
    cases hok
    obtain ⟨hU2, hcnt2⟩ := IH (cs.dropWhile (fun d => decide (d = c)))
      (idx + ((cs.takeWhile (fun d => decide (d = c))).length + 1)) F2
      hchainrest
      (fun d hd hq => hinf d hd (hq.trans
        (((List.dropWhile_suffix _).trans (List.suffix_cons c cs)).isInfix)))
      hrec
    constructor
    · have hUcs : unfoldedProgram cs =
          some (List.replicate (cs.takeWhile (fun d => decide (d = c))).length
            (mk 1) ++ F2.flatMap expandOne) := by
        conv_lhs => rw [hcs]
        exact unfoldedProgram_replicate c (mk 1) hfb _ _ _ hU2
      unfold unfoldedProgram
      rw [hfb, hUcs]
      simp only [List.flatMap_cons, hex, List.replicate_succ, List.cons_append]
    · intro k hk
      rw [List.map_cons] at hk
      rcases List.mem_cons.mp hk with hk | hk
      · rw [hlen1] at hk; omega
      · exact hcnt2 k hk

/-- The step of the syntactic expansion at a character that folds into a
single non-arithmetic instruction: dot, comma and the two brackets. -/
theorem compile_expand_single_step
    (c : Char) (i1 : Instruction)
    (hfb : Instruction.from_byte c = some i1)
    (hna : isArith i1 = false)
    (hone : expandOne i1 = [i1]) (hlen1 : exLen i1 = 1)
    (f : Nat) (cs : List Char) (idx : Nat) (F : List Instruction)
    (hchain : List.Chain' (fun a b => opp a b = false) (c :: cs))
    (hinf : ∀ d ∈ (['+', '-', '>', '<'] : List Char),
      ¬ (List.replicate 256 d <:+: (c :: cs)))
    (hok : compileLoop (f + 1) (c :: cs) idx = Except.ok F)
    (IH : ∀ (src2 : List Char) (idx2 : Nat) (F2 : List Instruction),
      List.Chain' (fun a b => opp a b = false) src2 →
      (∀ d ∈ (['+', '-', '>', '<'] : List Char),
        ¬ (List.replicate 256 d <:+: src2)) →
      compileLoop f src2 idx2 = Except.ok F2 →
      unfoldedProgram src2 = some (F2.flatMap expandOne) ∧
      ∀ k ∈ F2.map exLen, 1 ≤ k) :
    unfoldedProgram (c :: cs) = some (F.flatMap expandOne) ∧
    ∀ k ∈ F.map exLen, 1 ≤ k := by
  rw [compileLoop_cons_eq f idx c cs i1 hfb,
    parseRun_of_not_arith i1 cs 1 hna] at hok
  dsimp only at hok
  rw [Nat.sub_self, List.drop_zero] at hok
  cases hrec : compileLoop f cs (idx + 1) with
  | error e => rw [hrec] at hok; exact absurd hok (by simp)
  | ok F2 =>
    rw [hrec] at hok
    cases hok
    obtain ⟨hU2, hcnt2⟩ := IH cs (idx + 1) F2 hchain.tail
      (fun d hd hq => hinf d hd (hq.trans ((List.suffix_cons c cs).isInfix)))
      hrec
    constructor
    · unfold unfoldedProgram
      rw [hfb, hU2]
      simp only [List.flatMap_cons, hone, List.cons_append, List.nil_append]
    · intro k hk
      rw [List.map_cons] at hk
      rcases List.mem_cons.mp hk with hk | hk
      · rw [hlen1] at hk; omega
      · exact hcnt2 k hk

/-- The syntactic expansion: whenever the folding scan succeeds on a source
whose adjacent characters never fold against each other and whose uniform
runs stay below 256, the unfolded per-character program exists and is
exactly the instruction-wise expansion of the folded program, and every
folded instruction expands to at least one unit instruction. -/
theorem compile_expand : ∀ (fuel : Nat) (src : List Char) (idx : Nat)
    (F : List Instruction),
    List.Chain' (fun a b => opp a b = false) src →
    (∀ d ∈ (['+', '-', '>', '<'] : List Char),
      ¬ (List.replicate 256 d <:+: src)) →
    compileLoop fuel src idx = Except.ok F →
    unfoldedProgram src = some (F.flatMap expandOne) ∧
    ∀ k ∈ F.map exLen, 1 ≤ k := by
  intro fuel
  induction fuel with
  | zero =>
    intro src idx F _ _ hok
    cases src with
    | nil =>
      cases hok
      exact ⟨rfl, by simp⟩
    | cons c cs => exact absurd hok (by simp [compileLoop])
  | succ f ih =>
    intro src idx F hchain hinf hok
    cases src with
    | nil =>
      cases hok
      exact ⟨rfl, by simp⟩
    | cons c cs =>
      cases hfb : Instruction.from_byte c with
      | none =>
        have hbad : compileLoop (f + 1) (c :: cs) idx =
            Except.error (CErr.unexpectedChar, idx) := by
          conv_lhs => rw [compileLoop]
          rw [hfb]
        rw [hbad] at hok
        exact absurd hok (by simp)
      | some i =>
        rcases from_byte_inv c i hfb with
          ⟨hcq, hiq⟩ | ⟨hcq, hiq⟩ | ⟨hcq, hiq⟩ | ⟨hcq, hiq⟩ |
          ⟨hcq, hiq⟩ | ⟨hcq, hiq⟩ | ⟨hcq, hiq⟩ | ⟨hcq, hiq⟩ <;>
          subst hcq <;> subst hiq
        · exact compile_expand_arith_step '+' Instruction.Add runChar_plus rfl
            (fun n => rfl) (fun n => rfl) f cs idx F hchain hinf (by decide)
            hok ih
        · exact compile_expand_arith_step '-' Instruction.Sub runChar_minus rfl
            (fun n => rfl) (fun n => rfl) f cs idx F hchain hinf (by decide)
            hok ih
        · exact compile_expand_arith_step '>' Instruction.MoveRight
            runChar_right rfl (fun n => rfl) (fun n => rfl) f cs idx F hchain
            hinf (by decide) hok ih
        · exact compile_expand_arith_step '<' Instruction.MoveLeft
            runChar_left rfl (fun n => rfl) (fun n => rfl) f cs idx F hchain
            hinf (by decide) hok ih
        · exact compile_expand_single_step '.' Instruction.Output rfl rfl rfl
            rfl f cs idx F hchain hinf hok ih
        · exact compile_expand_single_step ',' Instruction.Input rfl rfl rfl
            rfl f cs idx F hchain hinf hok ih
        · exact compile_expand_single_step '[' (Instruction.Jump 0) rfl rfl rfl
            rfl f cs idx F hchain hinf hok ih
        · exact compile_expand_single_step ']' (Instruction.JumpBack 0) rfl rfl
            rfl rfl f cs idx F hchain hinf hok ih

/-! Commutation of jump resolution with expansion: resolving the jumps of
the expanded program succeeds exactly when resolving the folded program
does, and produces the expansion with every bracket target remapped by
offsetE. The proof walks both resolution loops in lockstep: one folded
instruction corresponds to a block of expanded instructions that contains
no bracket, or to a single expanded bracket at the offset position. -/

/-- Setting an element inside the second part of an appended list. -/
theorem set_append_add {α : Type} : ∀ (l1 l2 : List α) (n : Nat) (v : α),
    (l1 ++ l2).set (l1.length + n) v = l1 ++ l2.set n v := by
  intro l1
  induction l1 with
  | nil => intro l2 n v; simp
  | cons x xs ih =>
    intro l2 n v
    have h1 : (x :: xs).length + n = (xs.length + n) + 1 := by
      simp only [List.length_cons]
      omega
    rw [h1]
    show x :: ((xs ++ l2).set (xs.length + n) v) = _
    rw [ih l2 n v]
    rfl

/-- Setting a position whose image under a flat map is a single element
sets exactly that element, at the offset given by the lengths of the
images of the earlier elements. -/
theorem flatMap_set_singleton {α β : Type} (g : α → List β) :
    ∀ (A : List α) (p : Nat) (a b : α) (y : β),
    A.get? p = some a → (g a).length = 1 → g b = [y] →
    (A.set p b).flatMap g =
      (A.flatMap g).set (((A.take p).map (fun x => (g x).length)).sum) y := by
  intro A
  induction A with
  | nil =>
    intro p a b y h _ _
    simp at h
  | cons x xs ih =>
    intro p a b y hget hlen hgb
    cases p with
    | zero =>
      have hax : x = a := by simpa using hget
      subst hax
      obtain ⟨z, hz⟩ := List.length_eq_one.mp hlen
      show (b :: xs).flatMap g = _
      rw [List.flatMap_cons, List.flatMap_cons, hgb, hz]
      simp
    | succ p2 =>
      have hget2 : xs.get? p2 = some a := by simpa using hget
      show (x :: xs.set p2 b).flatMap g = _
      rw [List.flatMap_cons, List.flatMap_cons, ih p2 a b y hget2 hlen hgb,
        List.take_succ_cons, List.map_cons]
      show _ = (g x ++ xs.flatMap g).set
        ((g x).length + ((xs.take p2).map (fun x => (g x).length)).sum) y
      rw [set_append_add]

/-- Replacing an instruction by one of the same expansion length does not
change the expansion length list. -/
theorem map_exLen_set (A : List Instruction) (p : Nat) (a b : Instruction)
    (hget : A.get? p = some a) (hlen : exLen b = exLen a) :
    (A.set p b).map exLen = A.map exLen := by
  rw [List.map_set, hlen]
  apply set_of_get?
  rw [List.get?_map exLen A p, hget]
  rfl

/-- The offset computed from the expansion images agrees with offsetE. -/
theorem offsetG_eq_offsetE (A : List Instruction) (E : List Nat)
    (hE : E = A.map exLen) (p : Nat) :
    ((A.take p).map (fun x => (expandRes (offsetE E) x).length)).sum =
      offsetE E p := by
  have h1 : (A.take p).map (fun x => (expandRes (offsetE E) x).length) =
      (A.take p).map exLen := by
    apply List.map_eq_map_iff.mpr
    intro x _
    exact length_expandRes _ x
  rw [h1, List.map_take, ← hE]
  rfl

/-- The resolution loop scans over a block of non-bracket instructions
without touching the array or the stack. -/
theorem ujl_skip : ∀ (blk : List Instruction),
    (∀ x ∈ blk, isBracket x = false) →
    ∀ (B : List Instruction) (j : Nat) (st : List Nat)
    (rest : List Instruction),
    update_jumps_loop B j st (blk ++ rest) =
      update_jumps_loop B (j + blk.length) st rest := by
  intro blk
  induction blk with
  | nil => intro _ B j st rest; rfl
  | cons x xs ih =>
    intro hnb B j st rest
    have hx : isBracket x = false := hnb x (List.mem_cons_self x xs)
    have hstep : update_jumps_loop B j st ((x :: xs) ++ rest) =
        update_jumps_loop B (j + 1) st (xs ++ rest) := by
      cases x <;> first
        | rfl
        | simp [isBracket] at hx
    rw [hstep, ih (fun d hd => hnb d (List.mem_cons_of_mem x hd)) B (j + 1)
      st rest]
    simp only [List.length_cons]
    have harith : j + 1 + xs.length = j + (xs.length + 1) := by omega
    rw [harith]

/-- Every instruction in the expansion of a non-bracket instruction is a
non-bracket instruction. -/
theorem expandRes_nonbracket (ph : Nat → Nat) (cur : Instruction)
    (h : isBracket cur = false) :
    ∀ x ∈ expandRes ph cur, isBracket x = false := by
  intro x hx
  cases cur with
  | Add n =>
    have hq := List.eq_of_mem_replicate
      (show x ∈ List.replicate n (Instruction.Add 1) from hx)
    rw [hq]; rfl
  | Sub n =>
    have hq := List.eq_of_mem_replicate
      (show x ∈ List.replicate n (Instruction.Sub 1) from hx)
    rw [hq]; rfl
  | MoveRight n =>
    have hq := List.eq_of_mem_replicate
      (show x ∈ List.replicate n (Instruction.MoveRight 1) from hx)
    rw [hq]; rfl
  | MoveLeft n =>
    have hq := List.eq_of_mem_replicate
      (show x ∈ List.replicate n (Instruction.MoveLeft 1) from hx)
    rw [hq]; rfl
  | Output =>
    have hq : x = Instruction.Output := by
      simpa [expandRes, expandOne] using hx
    rw [hq]; rfl
  | Input =>
    have hq : x = Instruction.Input := by
      simpa [expandRes, expandOne] using hx
    rw [hq]; rfl
  | Jump t => simp [isBracket] at h
  | JumpBack t => simp [isBracket] at h

/-- One expanded non-bracket block is scanned in exLen many steps. -/
theorem ujl_skip_expand (B : List Instruction) (j : Nat) (stB : List Nat)
    (E : List Nat) (cur : Instruction) (rem2 : List Instruction)
    (hnb : isBracket cur = false) :
    update_jumps_loop B j stB ((cur :: rem2).flatMap (expandRes (offsetE E))) =
      update_jumps_loop B (j + exLen cur) stB
        (rem2.flatMap (expandRes (offsetE E))) := by
  rw [List.flatMap_cons, ujl_skip _ (expandRes_nonbracket _ _ hnb),
    length_expandRes]

/-- One step of the resolution loop at an open bracket. -/
theorem ujl_cons_jump (B : List Instruction) (j : Nat) (st : List Nat)
    (t : Nat) (rest : List Instruction) :
    update_jumps_loop B j st (Instruction.Jump t :: rest) =
      update_jumps_loop B (j + 1) (j :: st) rest := rfl

/-- One step of the resolution loop at a close bracket with a pending
open. -/
theorem ujl_cons_jumpback (B : List Instruction) (j : Nat) (s0 : Nat)
    (ss : List Nat) (t : Nat) (rest : List Instruction) :
    update_jumps_loop B j (s0 :: ss) (Instruction.JumpBack t :: rest) =
      update_jumps_loop
        ((B.set s0 (Instruction.Jump j)).set j (Instruction.JumpBack s0))
        (j + 1) ss rest := rfl

/-- Lockstep correctness of the two resolution loops: whenever the folded
loop succeeds from a matching state, the expanded loop succeeds from the
offset image of that state and returns the remapped expansion of the folded
result; the expansion length list is unchanged by resolution. -/
theorem ujl_expand : ∀ (rem A : List Instruction) (i : Nat) (st : List Nat)
    (F : List Instruction) (E : List Nat),
    E = A.map exLen →
    A.drop i = rem →
    (∀ s ∈ st, s < i) →
    List.Chain' (fun a b => b < a) st →
    (∀ s ∈ st, ∃ t, A.get? s = some (Instruction.Jump t)) →
    update_jumps_loop A i st rem = Except.ok F →
    F.map exLen = E ∧
    update_jumps_loop (A.flatMap (expandRes (offsetE E))) (offsetE E i)
        (st.map (offsetE E)) (rem.flatMap (expandRes (offsetE E))) =
      Except.ok (F.flatMap (expandRes (offsetE E))) := by
  intro rem
  induction rem with
  | nil =>
    intro A i st F E hE hdrop hlt hchain hopen hok
    cases st with
    | nil =>
      have hFA : A = F := by simpa [update_jumps_loop] using hok
      subst hFA
      refine ⟨hE.symm, ?_⟩
      simp [update_jumps_loop]
    | cons s ss => simp [update_jumps_loop] at hok
  | cons cur rem2 ih =>
    intro A i st F E hE hdrop hlt hchain hopen hok
    have hgi : A.get? i = some cur := by
      have h0 := List.get?_drop A i 0
      rw [hdrop] at h0
      simpa using h0.symm
    have hrest : A.drop (i + 1) = rem2 := by
      have h1 : (A.drop i).drop 1 = (cur :: rem2).drop 1 := by rw [hdrop]
      simpa [List.drop_drop] using h1
    have hEi : E.get? i = some (exLen cur) := by
      rw [hE, List.get?_map exLen A i, hgi]
      rfl
    have hoff : offsetE E (i + 1) = offsetE E i + exLen cur :=
      offsetE_succ E i _ hEi
    cases cur with
    | Add n =>
      have hok2 : update_jumps_loop A (i + 1) st rem2 = Except.ok F := hok
      obtain ⟨hFE, hB⟩ := ih A (i + 1) st F E hE hrest
        (fun s hs => Nat.lt_succ_of_lt (hlt s hs)) hchain hopen hok2
      refine ⟨hFE, ?_⟩
      rw [ujl_skip_expand _ _ _ E (Instruction.Add n) rem2 rfl, ← hoff]
      exact hB
    | Sub n =>
      have hok2 : update_jumps_loop A (i + 1) st rem2 = Except.ok F := hok
      obtain ⟨hFE, hB⟩ := ih A (i + 1) st F E hE hrest
        (fun s hs => Nat.lt_succ_of_lt (hlt s hs)) hchain hopen hok2
      refine ⟨hFE, ?_⟩
      rw [ujl_skip_expand _ _ _ E (Instruction.Sub n) rem2 rfl, ← hoff]
      exact hB
    | MoveRight n =>
      have hok2 : update_jumps_loop A (i + 1) st rem2 = Except.ok F := hok
      obtain ⟨hFE, hB⟩ := ih A (i + 1) st F E hE hrest
        (fun s hs => Nat.lt_succ_of_lt (hlt s hs)) hchain hopen hok2
      refine ⟨hFE, ?_⟩
      rw [ujl_skip_expand _ _ _ E (Instruction.MoveRight n) rem2 rfl, ← hoff]
      exact hB
    | MoveLeft n =>
      have hok2 : update_jumps_loop A (i + 1) st rem2 = Except.ok F := hok
      obtain ⟨hFE, hB⟩ := ih A (i + 1) st F E hE hrest
        (fun s hs => Nat.lt_succ_of_lt (hlt s hs)) hchain hopen hok2
      refine ⟨hFE, ?_⟩
      rw [ujl_skip_expand _ _ _ E (Instruction.MoveLeft n) rem2 rfl, ← hoff]
      exact hB
    | Output =>
      have hok2 : update_jumps_loop A (i + 1) st rem2 = Except.ok F := hok
      obtain ⟨hFE, hB⟩ := ih A (i + 1) st F E hE hrest
        (fun s hs => Nat.lt_succ_of_lt (hlt s hs)) hchain hopen hok2
      refine ⟨hFE, ?_⟩
      rw [ujl_skip_expand _ _ _ E Instruction.Output rem2 rfl, ← hoff]
      exact hB
    | Input =>
      have hok2 : update_jumps_loop A (i + 1) st rem2 = Except.ok F := hok
      obtain ⟨hFE, hB⟩ := ih A (i + 1) st F E hE hrest
        (fun s hs => Nat.lt_succ_of_lt (hlt s hs)) hchain hopen hok2
      refine ⟨hFE, ?_⟩
      rw [ujl_skip_expand _ _ _ E Instruction.Input rem2 rfl, ← hoff]
      exact hB
    | Jump t0 =>
      simp only [exLen] at hoff
      have hok2 : update_jumps_loop A (i + 1) (i :: st) rem2 =
          Except.ok F := hok
      have hlt2 : ∀ s ∈ (i :: st), s < i + 1 := by
        intro s hs
        rcases List.mem_cons.mp hs with h | h
        · omega
        · exact Nat.lt_succ_of_lt (hlt s h)
      have hchain2 : List.Chain' (fun a b => b < a) (i :: st) :=
        List.Chain'.cons' hchain (by
          intro y hy
          exact hlt y (List.mem_of_mem_head? hy))
      have hopen2 : ∀ s ∈ (i :: st), ∃ t, A.get? s =
          some (Instruction.Jump t) := by
        intro s hs
        rcases List.mem_cons.mp hs with h | h
        · subst h; exact ⟨t0, hgi⟩
        · exact hopen s h
      obtain ⟨hFE, hB⟩ := ih A (i + 1) (i :: st) F E hE hrest hlt2 hchain2
        hopen2 hok2
      refine ⟨hFE, ?_⟩
      rw [List.flatMap_cons]
      show update_jumps_loop (A.flatMap (expandRes (offsetE E))) (offsetE E i)
        (st.map (offsetE E)) (Instruction.Jump (offsetE E t0) ::
          rem2.flatMap (expandRes (offsetE E))) = _
      rw [ujl_cons_jump]
      rw [hoff] at hB
      simp only [List.map_cons] at hB
      exact hB
    | JumpBack t0 =>
      simp only [exLen] at hoff
      cases st with
      | nil => simp [update_jumps_loop] at hok
      | cons start ss =>
        have hstart_lt : start < i := hlt start (List.mem_cons_self start ss)
        obtain ⟨tS, hAstart⟩ := hopen start (List.mem_cons_self start ss)
        have hok2 : update_jumps_loop
            ((A.set start (Instruction.Jump i)).set i
              (Instruction.JumpBack start)) (i + 1) ss rem2 =
            Except.ok F := hok
        have hA1i : (A.set start (Instruction.Jump i)).get? i =
            some (Instruction.JumpBack t0) := by
          rw [List.get?_set, if_neg (by omega)]
          exact hgi
        have hE1 : E = (A.set start (Instruction.Jump i)).map exLen := by
          rw [map_exLen_set A start (Instruction.Jump tS)
            (Instruction.Jump i) hAstart rfl]
          exact hE
        have hE2 : E = ((A.set start (Instruction.Jump i)).set i
            (Instruction.JumpBack start)).map exLen := by
          rw [map_exLen_set _ i (Instruction.JumpBack t0)
            (Instruction.JumpBack start) hA1i rfl]
          exact hE1
        have hdrop2 : ((A.set start (Instruction.Jump i)).set i
            (Instruction.JumpBack start)).drop (i + 1) = rem2 := by
          rw [drop_set_of_lt _ _ _ _ (Nat.lt_succ_self i),
            drop_set_of_lt _ _ _ _ (by omega)]
          exact hrest
        have hpw := List.chain'_iff_pairwise.mp hchain
        have hssx : ∀ s ∈ ss, s < start := (List.pairwise_cons.mp hpw).1
        have hopen2 : ∀ s ∈ ss, ∃ t, ((A.set start (Instruction.Jump i)).set i
            (Instruction.JumpBack start)).get? s =
            some (Instruction.Jump t) := by
          intro s hs
          obtain ⟨t, hAs⟩ := hopen s (List.mem_cons_of_mem start hs)
          have hslt : s < start := hssx s hs
          refine ⟨t, ?_⟩
          rw [List.get?_set, if_neg (by omega), List.get?_set,
            if_neg (by omega)]
          exact hAs
        obtain ⟨hFE, hB⟩ := ih ((A.set start (Instruction.Jump i)).set i
            (Instruction.JumpBack start)) (i + 1) ss F E hE2 hdrop2
          (fun s hs => Nat.lt_succ_of_lt
            (hlt s (List.mem_cons_of_mem start hs)))
          hchain.tail hopen2 hok2
        refine ⟨hFE, ?_⟩
        have hstep1 : (A.set start (Instruction.Jump i)).flatMap
            (expandRes (offsetE E)) =
            (A.flatMap (expandRes (offsetE E))).set (offsetE E start)
              (Instruction.Jump (offsetE E i)) := by
          rw [flatMap_set_singleton (expandRes (offsetE E)) A start
            (Instruction.Jump tS) (Instruction.Jump i)
            (Instruction.Jump (offsetE E i)) hAstart rfl rfl,
            offsetG_eq_offsetE A E hE start]
        have hstep2 : ((A.set start (Instruction.Jump i)).set i
            (Instruction.JumpBack start)).flatMap (expandRes (offsetE E)) =
            ((A.flatMap (expandRes (offsetE E))).set (offsetE E start)
              (Instruction.Jump (offsetE E i))).set (offsetE E i)
              (Instruction.JumpBack (offsetE E start)) := by
          rw [flatMap_set_singleton (expandRes (offsetE E))
            (A.set start (Instruction.Jump i)) i
            (Instruction.JumpBack t0) (Instruction.JumpBack start)
            (Instruction.JumpBack (offsetE E start)) hA1i rfl rfl,
            offsetG_eq_offsetE (A.set start (Instruction.Jump i)) E hE1 i,
            hstep1]
        rw [List.flatMap_cons]
        show update_jumps_loop (A.flatMap (expandRes (offsetE E)))
          (offsetE E i) (offsetE E start :: ss.map (offsetE E))
          (Instruction.JumpBack (offsetE E t0) ::
            rem2.flatMap (expandRes (offsetE E))) = _
        rw [ujl_cons_jumpback]
        rw [hoff, hstep2] at hB
        exact hB

/-- Jump resolution commutes with expansion: if resolution of the folded
program succeeds, resolution of its expansion succeeds and produces the
expansion of the resolved program with bracket targets remapped by offsetE,
and resolution does not change the expansion length list. -/
theorem update_jumps_expand (F0 F : List Instruction)
    (hz : ∀ j ∈ F0, isBracket j = true →
      j = Instruction.Jump 0 ∨ j = Instruction.JumpBack 0)
    (hok : Instruction.update_jumps F0 = Except.ok F) :
    F.map exLen = F0.map exLen ∧
    Instruction.update_jumps (F0.flatMap expandOne) =
      Except.ok (F.flatMap (expandRes (offsetE (F0.map exLen)))) := by
  obtain ⟨hFE, hB⟩ := ujl_expand F0 F0 0 [] F (F0.map exLen) rfl rfl
    (fun s hs => absurd hs (List.not_mem_nil s)) List.chain'_nil
    (fun s hs => absurd hs (List.not_mem_nil s)) hok
  refine ⟨hFE, ?_⟩
  unfold Instruction.update_jumps
  rw [expandOne_eq_expandRes (F0.map exLen) F0 hz]
  exact hB

/-! Execution simulation between a folded program and its expansion. The
driver runTrace is analyzed one fetched instruction at a time; an expanded
arithmetic block of unit instructions is collapsed by the block lemmas
below, which iterate the unit cell update to the counted update that the
folded instruction performs in one step. -/

/-- One driver step that completes silently. -/
theorem runTrace_silent (s s2 : Interpreter) (f : Nat) (instr : Instruction)
    (hins : s.instructions.get? s.pc = some instr)
    (hex : instr.execute { s with pc := s.pc + 1 } = some (none, s2)) :
    s.runTrace (f + 1) = s2.runTrace f := by
  rw [runTrace_step s f instr hins, hex]

/-- One driver step that emits a byte. -/
theorem runTrace_emit (s s2 : Interpreter) (f : Nat) (instr : Instruction)
    (b : Nat) (hins : s.instructions.get? s.pc = some instr)
    (hex : instr.execute { s with pc := s.pc + 1 } =
      some (some (Output.Output b), s2)) :
    s.runTrace (f + 1) = (s2.runTrace f).consEmit b := by
  rw [runTrace_step s f instr hins, hex]

/-- One driver step that suspends for input. -/
theorem runTrace_needs (s s2 : Interpreter) (f : Nat) (instr : Instruction)
    (hins : s.instructions.get? s.pc = some instr)
    (hex : instr.execute { s with pc := s.pc + 1 } =
      some (some Output.Input, s2)) :
    s.runTrace (f + 1) = RunResult.needsInput [] s2 := by
  rw [runTrace_step s f instr hins, hex]

/-- One driver step that panics. -/
theorem runTrace_panicstep (s : Interpreter) (f : Nat) (instr : Instruction)
    (hins : s.instructions.get? s.pc = some instr)
    (hex : instr.execute { s with pc := s.pc + 1 } = none) :
    s.runTrace (f + 1) = RunResult.panic [] := by
  rw [runTrace_step s f instr hins, hex]

/-- Values stored by a block stay within the byte bound. -/
theorem memLe_set (l : List Nat) (p v : Nat) (hl : ∀ x ∈ l, x ≤ 255)
    (hv : v ≤ 255) : ∀ x ∈ l.set p v, x ≤ 255 := by
  intro x hx
  rcases List.mem_or_eq_of_mem_set hx with h | h
  · exact hl x h
  · omega

/-- A block of unit Add instructions accumulates the saturating counted
addition of the folded instruction. -/
theorem runTrace_add_block : ∀ (n f : Nat) (mem : List Nat) (pos pc : Nat)
    (ins : List Instruction) (inp : List Nat) (v : Nat),
    mem.get? pos = some v → v ≤ 255 →
    (∀ j, j < n → ins.get? (pc + j) = some (Instruction.Add 1)) →
    Interpreter.runTrace (n + f) ⟨mem, pos, pc, ins, inp⟩ =
      Interpreter.runTrace f
        ⟨mem.set pos (min (v + n) 255), pos, pc + n, ins, inp⟩ := by
  intro n
  induction n with
  | zero =>
    intro f mem pos pc ins inp v hv hv255 _
    have h1 : min (v + 0) 255 = v := by omega
    rw [Nat.zero_add, h1, set_of_get? mem pos v hv]
    rfl
  | succ n2 ih =>
    intro f mem pos pc ins inp v hv hv255 hblock
    have hget : ins.get? pc = some (Instruction.Add 1) := by
      have h0 := hblock 0 (by omega)
      simpa using h0
    have harith : n2 + 1 + f = (n2 + f) + 1 := by omega
    rw [harith]
    have hexec : (Instruction.Add 1).execute ⟨mem, pos, pc + 1, ins, inp⟩ =
        some (none, ⟨mem.set pos (min (v + 1) 255), pos, pc + 1, ins, inp⟩) := by
      simp only [Instruction.execute, hv]
    rw [runTrace_silent ⟨mem, pos, pc, ins, inp⟩
      ⟨mem.set pos (min (v + 1) 255), pos, pc + 1, ins, inp⟩ (n2 + f)
      (Instruction.Add 1) hget hexec]
    rw [ih f (mem.set pos (min (v + 1) 255)) pos (pc + 1) ins inp
      (min (v + 1) 255) (get?_set_self mem pos _ v hv) (by omega)
      (fun j hj => by
        have h2 : pc + 1 + j = pc + (j + 1) := by omega
        rw [h2]
        exact hblock (j + 1) (by omega))]
    have hmem2 : (mem.set pos (min (v + 1) 255)).set pos
        (min (min (v + 1) 255 + n2) 255) =
        mem.set pos (min (v + (n2 + 1)) 255) := by
      rw [List.set_set]
      congr 1
      omega
    have hpc2 : pc + 1 + n2 = pc + (n2 + 1) := by omega
    rw [hmem2, hpc2]

/-- A block of unit Sub instructions accumulates the truncated counted
subtraction of the folded instruction. -/
theorem runTrace_sub_block : ∀ (n f : Nat) (mem : List Nat) (pos pc : Nat)
    (ins : List Instruction) (inp : List Nat) (v : Nat),
    mem.get? pos = some v →
    (∀ j, j < n → ins.get? (pc + j) = some (Instruction.Sub 1)) →
    Interpreter.runTrace (n + f) ⟨mem, pos, pc, ins, inp⟩ =
      Interpreter.runTrace f ⟨mem.set pos (v - n), pos, pc + n, ins, inp⟩ := by
  intro n
  induction n with
  | zero =>
    intro f mem pos pc ins inp v hv _
    rw [Nat.zero_add, Nat.sub_zero, set_of_get? mem pos v hv]
    rfl
  | succ n2 ih =>
    intro f mem pos pc ins inp v hv hblock
    have hget : ins.get? pc = some (Instruction.Sub 1) := by
      have h0 := hblock 0 (by omega)
      simpa using h0
    have harith : n2 + 1 + f = (n2 + f) + 1 := by omega
    rw [harith]
    have hexec : (Instruction.Sub 1).execute ⟨mem, pos, pc + 1, ins, inp⟩ =
        some (none, ⟨mem.set pos (v - 1), pos, pc + 1, ins, inp⟩) := by
      simp only [Instruction.execute, hv]
    rw [runTrace_silent ⟨mem, pos, pc, ins, inp⟩
      ⟨mem.set pos (v - 1), pos, pc + 1, ins, inp⟩ (n2 + f)
      (Instruction.Sub 1) hget hexec]
    rw [ih f (mem.set pos (v - 1)) pos (pc + 1) ins inp (v - 1)
      (get?_set_self mem pos _ v hv)
      (fun j hj => by
        have h2 : pc + 1 + j = pc + (j + 1) := by omega
        rw [h2]
        exact hblock (j + 1) (by omega))]
    have hmem2 : (mem.set pos (v - 1)).set pos (v - 1 - n2) =
        mem.set pos (v - (n2 + 1)) := by
      rw [List.set_set]
      congr 1
      omega
    have hpc2 : pc + 1 + n2 = pc + (n2 + 1) := by omega
    rw [hmem2, hpc2]

/-- A block of unit MoveRight instructions accumulates the saturating
counted pointer move of the folded instruction. -/
theorem runTrace_right_block : ∀ (n f : Nat) (mem : List Nat) (pos pc : Nat)
    (ins : List Instruction) (inp : List Nat),
    pos ≤ USIZE_MAX →
    (∀ j, j < n → ins.get? (pc + j) = some (Instruction.MoveRight 1)) →
    Interpreter.runTrace (n + f) ⟨mem, pos, pc, ins, inp⟩ =
      Interpreter.runTrace f
        ⟨mem, min (pos + n) USIZE_MAX, pc + n, ins, inp⟩ := by
  intro n
  induction n with
  | zero =>
    intro f mem pos pc ins inp hple _
    have h1 : min (pos + 0) USIZE_MAX = pos := by
      simp only [USIZE_MAX] at hple ⊢
      omega
    rw [Nat.zero_add, h1]
    rfl
  | succ n2 ih =>
    intro f mem pos pc ins inp hple hblock
    have hget : ins.get? pc = some (Instruction.MoveRight 1) := by
      have h0 := hblock 0 (by omega)
      simpa using h0
    have harith : n2 + 1 + f = (n2 + f) + 1 := by omega
    rw [harith]
    have hexec : (Instruction.MoveRight 1).execute ⟨mem, pos, pc + 1, ins, inp⟩ =
        some (none, ⟨mem, min (pos + 1) USIZE_MAX, pc + 1, ins, inp⟩) := by
      simp only [Instruction.execute]
    rw [runTrace_silent ⟨mem, pos, pc, ins, inp⟩
      ⟨mem, min (pos + 1) USIZE_MAX, pc + 1, ins, inp⟩ (n2 + f)
      (Instruction.MoveRight 1) hget hexec]
    rw [ih f mem (min (pos + 1) USIZE_MAX) (pc + 1) ins inp
      (Nat.min_le_right _ _)
      (fun j hj => by
        have h2 : pc + 1 + j = pc + (j + 1) := by omega
        rw [h2]
        exact hblock (j + 1) (by omega))]
    have hpos2 : min (min (pos + 1) USIZE_MAX + n2) USIZE_MAX =
        min (pos + (n2 + 1)) USIZE_MAX := by
      simp only [USIZE_MAX] at hple ⊢
      omega
    have hpc2 : pc + 1 + n2 = pc + (n2 + 1) := by omega
    rw [hpos2, hpc2]

/-- A block of unit MoveLeft instructions accumulates the truncated counted
pointer move of the folded instruction. -/
theorem runTrace_left_block : ∀ (n f : Nat) (mem : List Nat) (pos pc : Nat)
    (ins : List Instruction) (inp : List Nat),
    (∀ j, j < n → ins.get? (pc + j) = some (Instruction.MoveLeft 1)) →
    Interpreter.runTrace (n + f) ⟨mem, pos, pc, ins, inp⟩ =
      Interpreter.runTrace f ⟨mem, pos - n, pc + n, ins, inp⟩ := by
  intro n
  induction n with
  | zero =>
    intro f mem pos pc ins inp _
    rw [Nat.zero_add, Nat.sub_zero]
    rfl
  | succ n2 ih =>
    intro f mem pos pc ins inp hblock
    have hget : ins.get? pc = some (Instruction.MoveLeft 1) := by
      have h0 := hblock 0 (by omega)
      simpa using h0
    have harith : n2 + 1 + f = (n2 + f) + 1 := by omega
    rw [harith]
    have hexec : (Instruction.MoveLeft 1).execute ⟨mem, pos, pc + 1, ins, inp⟩ =
        some (none, ⟨mem, pos - 1, pc + 1, ins, inp⟩) := by
      simp only [Instruction.execute]
    rw [runTrace_silent ⟨mem, pos, pc, ins, inp⟩
      ⟨mem, pos - 1, pc + 1, ins, inp⟩ (n2 + f)
      (Instruction.MoveLeft 1) hget hexec]
    rw [ih f mem (pos - 1) (pc + 1) ins inp
      (fun j hj => by
        have h2 : pc + 1 + j = pc + (j + 1) := by omega
        rw [h2]
        exact hblock (j + 1) (by omega))]
    have hpos2 : pos - 1 - n2 = pos - (n2 + 1) := by omega
    have hpc2 : pc + 1 + n2 = pc + (n2 + 1) := by omega
    rw [hpos2, hpc2]

/-- The expanded program has the same total length as the expansion length
sum of the folded program. -/
theorem length_expandList (FF : List Instruction) (E : List Nat)
    (hE : E = FF.map exLen) :
    (FF.flatMap (expandRes (offsetE E))).length = E.sum := by
  rw [List.length_flatMap]
  simp only [Function.comp_def]
  have h1 : FF.map (fun x => (expandRes (offsetE E) x).length) =
      FF.map exLen := List.map_eq_map_iff.mpr (fun x _ => length_expandRes _ x)
  rw [h1, ← hE]

/-- Reading inside the expansion block of folded instruction p. -/
theorem expand_get?_block (FF : List Instruction) (E : List Nat)
    (hE : E = FF.map exLen) (p : Nat) (a : Instruction)
    (hget : FF.get? p = some a) (j : Nat) (hj : j < exLen a) :
    (FF.flatMap (expandRes (offsetE E))).get? (offsetE E p + j) =
      (expandRes (offsetE E) a).get? j := by
  have hdec : FF = FF.take p ++ a :: FF.drop (p + 1) := by
    conv_lhs => rw [← List.take_append_drop p FF]
    rw [drop_cons_of_get? FF p a hget]
  conv_lhs => rw [hdec]
  rw [List.flatMap_append, List.flatMap_cons]
  have hlenpre : ((FF.take p).flatMap (expandRes (offsetE E))).length =
      offsetE E p := by
    rw [List.length_flatMap]
    simp only [Function.comp_def]
    exact offsetG_eq_offsetE FF E hE p
  rw [List.get?_append_right (by rw [hlenpre]; omega), hlenpre]
  have hidx : offsetE E p + j - offsetE E p = j := by omega
  rw [hidx]
  rw [List.get?_append (by rw [length_expandRes]; omega)]

/-- Reading inside an arithmetic expansion block gives the unit
instruction. -/
theorem expand_get?_run (FF : List Instruction) (E : List Nat)
    (hE : E = FF.map exLen) (p : Nat) (a u : Instruction)
    (hget : FF.get? p = some a)
    (hrep : expandRes (offsetE E) a = List.replicate (exLen a) u)
    (j : Nat) (hj : j < exLen a) :
    (FF.flatMap (expandRes (offsetE E))).get? (offsetE E p + j) = some u := by
  rw [expand_get?_block FF E hE p a hget j hj, hrep,
    List.get?_eq_getElem?, List.getElem?_replicate, if_pos hj]

/-- Reading the first unfolded instruction of an arithmetic block. -/
theorem expand_get?_first (FF : List Instruction) (E : List Nat)
    (hE : E = FF.map exLen) (p : Nat) (a u : Instruction)
    (hget : FF.get? p = some a)
    (hrep : expandRes (offsetE E) a = List.replicate (exLen a) u)
    (h1 : 1 ≤ exLen a) :
    (FF.flatMap (expandRes (offsetE E))).get? (offsetE E p) = some u := by
  have hq := expand_get?_run FF E hE p a u hget hrep 0 (by omega)
  simpa using hq

/-- Reading the single unfolded instruction of a one-instruction block. -/
theorem expand_get?_single (FF : List Instruction) (E : List Nat)
    (hE : E = FF.map exLen) (p : Nat) (a b : Instruction)
    (hget : FF.get? p = some a) (hb : expandRes (offsetE E) a = [b])
    (h1 : exLen a = 1) :
    (FF.flatMap (expandRes (offsetE E))).get? (offsetE E p) = some b := by
  have hq := expand_get?_block FF E hE p a hget 0 (by omega)
  rw [hb] at hq
  simpa using hq

/-- Past the folded program the expanded program is also exhausted. -/
theorem expand_get?_none (FF : List Instruction) (E : List Nat)
    (hE : E = FF.map exLen) (p : Nat) (hget : FF.get? p = none) :
    (FF.flatMap (expandRes (offsetE E))).get? (offsetE E p) = none := by
  have hlen : FF.length ≤ p := List.get?_eq_none.mp hget
  have hElen : E.length ≤ p := by
    rw [hE]
    simpa using hlen
  rw [offsetE_of_le E p hElen]
  apply List.get?_len_le
  rw [length_expandList FF E hE]

/-- Step-indexed simulation: every completed observation of the folded
program is produced by its expansion from the offset-image state, with some
fuel. One folded step maps to the block of its expanded unit steps; bracket
targets are remapped by offsetE on both ends of every jump. -/
theorem sim_trace : ∀ (N : Nat) (E : List Nat) (FF : List Instruction)
    (mem : List Nat) (pos pc : Nat) (inp : List Nat) (r : SRes),
    E = FF.map exLen →
    (∀ k ∈ E, 1 ≤ k) →
    (∀ x ∈ mem, x ≤ 255) →
    (∀ b ∈ inp, b ≤ 255) →
    pos ≤ USIZE_MAX →
    (Interpreter.runTrace N ⟨mem, pos, pc, FF, inp⟩).toSRes = some r →
    ∃ M, (Interpreter.runTrace M ⟨mem, pos, offsetE E pc,
      FF.flatMap (expandRes (offsetE E)), inp⟩).toSRes = some r := by
  intro N
  induction N with
  | zero =>
    intro E FF mem pos pc inp r _ _ _ _ _ hrun
    simp [Interpreter.runTrace, RunResult.toSRes] at hrun
  | succ f ih =>
    intro E FF mem pos pc inp r hE hcnt hm255 hi255 hple hrun
    cases hins : FF.get? pc with
    | none =>
      rw [runTrace_halt ⟨mem, pos, pc, FF, inp⟩ f hins] at hrun
      refine ⟨1, ?_⟩
      rw [runTrace_halt ⟨mem, pos, offsetE E pc,
        FF.flatMap (expandRes (offsetE E)), inp⟩ 0
        (expand_get?_none FF E hE pc hins)]
      exact hrun
    | some cur =>
      have hEpc : E.get? pc = some (exLen cur) := by
        rw [hE, List.get?_map exLen FF pc, hins]
        rfl
      have hoff := offsetE_succ E pc _ hEpc
      have hcur1 : 1 ≤ exLen cur := hcnt _ (List.get?_mem hEpc)
      cases cur with
      | Add n =>
        simp only [exLen] at hoff hcur1
        cases hv : mem.get? pos with
        | none =>
          have hexecF : (Instruction.Add n).execute
              ⟨mem, pos, pc + 1, FF, inp⟩ = none := by
            simp only [Instruction.execute, hv]
          rw [runTrace_panicstep ⟨mem, pos, pc, FF, inp⟩ f _ hins hexecF]
            at hrun
          refine ⟨1, ?_⟩
          have hgetU := expand_get?_first FF E hE pc (Instruction.Add n)
            (Instruction.Add 1) hins rfl hcur1
          have hexecU : (Instruction.Add 1).execute
              ⟨mem, pos, offsetE E pc + 1,
                FF.flatMap (expandRes (offsetE E)), inp⟩ = none := by
            simp only [Instruction.execute, hv]
          rw [runTrace_panicstep ⟨mem, pos, offsetE E pc,
            FF.flatMap (expandRes (offsetE E)), inp⟩ 0 _ hgetU hexecU]
          exact hrun
        | some v =>
          have hv255 : v ≤ 255 := hm255 v (List.get?_mem hv)
          have hexecF : (Instruction.Add n).execute
              ⟨mem, pos, pc + 1, FF, inp⟩ =
              some (none,
                ⟨mem.set pos (min (v + n) 255), pos, pc + 1, FF, inp⟩) := by
            simp only [Instruction.execute, hv]
          rw [runTrace_silent ⟨mem, pos, pc, FF, inp⟩
            ⟨mem.set pos (min (v + n) 255), pos, pc + 1, FF, inp⟩ f _
            hins hexecF] at hrun
          obtain ⟨M2, hM2⟩ := ih E FF (mem.set pos (min (v + n) 255)) pos
            (pc + 1) inp r hE hcnt
            (memLe_set mem pos _ hm255 (by omega)) hi255 hple hrun
          refine ⟨n + M2, ?_⟩
          rw [runTrace_add_block n M2 mem pos (offsetE E pc)
            (FF.flatMap (expandRes (offsetE E))) inp v hv hv255
            (fun j hj => expand_get?_run FF E hE pc (Instruction.Add n)
              (Instruction.Add 1) hins rfl j hj)]
          rw [← hoff]
          exact hM2
      | Sub n =>
        simp only [exLen] at hoff hcur1
        cases hv : mem.get? pos with
        | none =>
          have hexecF : (Instruction.Sub n).execute
              ⟨mem, pos, pc + 1, FF, inp⟩ = none := by
            simp only [Instruction.execute, hv]
          rw [runTrace_panicstep ⟨mem, pos, pc, FF, inp⟩ f _ hins hexecF]
            at hrun
          refine ⟨1, ?_⟩
          have hgetU := expand_get?_first FF E hE pc (Instruction.Sub n)
            (Instruction.Sub 1) hins rfl hcur1
          have hexecU : (Instruction.Sub 1).execute
              ⟨mem, pos, offsetE E pc + 1,
                FF.flatMap (expandRes (offsetE E)), inp⟩ = none := by
            simp only [Instruction.execute, hv]
          rw [runTrace_panicstep ⟨mem, pos, offsetE E pc,
            FF.flatMap (expandRes (offsetE E)), inp⟩ 0 _ hgetU hexecU]
          exact hrun
        | some v =>
          have hv255 : v ≤ 255 := hm255 v (List.get?_mem hv)
          have hexecF : (Instruction.Sub n).execute
              ⟨mem, pos, pc + 1, FF, inp⟩ =
              some (none, ⟨mem.set pos (v - n), pos, pc + 1, FF, inp⟩) := by
            simp only [Instruction.execute, hv]
          rw [runTrace_silent ⟨mem, pos, pc, FF, inp⟩
            ⟨mem.set pos (v - n), pos, pc + 1, FF, inp⟩ f _ hins hexecF]
            at hrun
          obtain ⟨M2, hM2⟩ := ih E FF (mem.set pos (v - n)) pos (pc + 1) inp r
            hE hcnt (memLe_set mem pos _ hm255 (by omega)) hi255 hple hrun
          refine ⟨n + M2, ?_⟩
          rw [runTrace_sub_block n M2 mem pos (offsetE E pc)
            (FF.flatMap (expandRes (offsetE E))) inp v hv
            (fun j hj => expand_get?_run FF E hE pc (Instruction.Sub n)
              (Instruction.Sub 1) hins rfl j hj)]
          rw [← hoff]
          exact hM2
      | MoveRight n =>
        simp only [exLen] at hoff hcur1
        have hexecF : (Instruction.MoveRight n).execute
            ⟨mem, pos, pc + 1, FF, inp⟩ =
            some (none,
              ⟨mem, min (pos + n) USIZE_MAX, pc + 1, FF, inp⟩) := by
          simp only [Instruction.execute]
        rw [runTrace_silent ⟨mem, pos, pc, FF, inp⟩
          ⟨mem, min (pos + n) USIZE_MAX, pc + 1, FF, inp⟩ f _ hins hexecF]
          at hrun
        obtain ⟨M2, hM2⟩ := ih E FF mem (min (pos + n) USIZE_MAX) (pc + 1)
          inp r hE hcnt hm255 hi255 (Nat.min_le_right _ _) hrun
        refine ⟨n + M2, ?_⟩
        rw [runTrace_right_block n M2 mem pos (offsetE E pc)
          (FF.flatMap (expandRes (offsetE E))) inp hple
          (fun j hj => expand_get?_run FF E hE pc (Instruction.MoveRight n)
            (Instruction.MoveRight 1) hins rfl j hj)]
        rw [← hoff]
        exact hM2
      | MoveLeft n =>
        simp only [exLen] at hoff hcur1
        have hexecF : (Instruction.MoveLeft n).execute
            ⟨mem, pos, pc + 1, FF, inp⟩ =
            some (none, ⟨mem, pos - n, pc + 1, FF, inp⟩) := by
          simp only [Instruction.execute]
        rw [runTrace_silent ⟨mem, pos, pc, FF, inp⟩
          ⟨mem, pos - n, pc + 1, FF, inp⟩ f _ hins hexecF] at hrun
        obtain ⟨M2, hM2⟩ := ih E FF mem (pos - n) (pc + 1) inp r hE hcnt
          hm255 hi255 (le_trans (Nat.sub_le pos n) hple) hrun
        refine ⟨n + M2, ?_⟩
        rw [runTrace_left_block n M2 mem pos (offsetE E pc)
          (FF.flatMap (expandRes (offsetE E))) inp
          (fun j hj => expand_get?_run FF E hE pc (Instruction.MoveLeft n)
            (Instruction.MoveLeft 1) hins rfl j hj)]
        rw [← hoff]
        exact hM2
      | Output =>
        simp only [exLen] at hoff
        cases hv : mem.get? pos with
        | none =>
          have hexecF : Instruction.Output.execute
              ⟨mem, pos, pc + 1, FF, inp⟩ = none := by
            simp only [Instruction.execute, hv]
          rw [runTrace_panicstep ⟨mem, pos, pc, FF, inp⟩ f _ hins hexecF]
            at hrun
          refine ⟨1, ?_⟩
          have hgetU := expand_get?_single FF E hE pc Instruction.Output
            Instruction.Output hins rfl rfl
          have hexecU : Instruction.Output.execute
              ⟨mem, pos, offsetE E pc + 1,
                FF.flatMap (expandRes (offsetE E)), inp⟩ = none := by
            simp only [Instruction.execute, hv]
          rw [runTrace_panicstep ⟨mem, pos, offsetE E pc,
            FF.flatMap (expandRes (offsetE E)), inp⟩ 0 _ hgetU hexecU]
          exact hrun
        | some v =>
          have hexecF : Instruction.Output.execute
              ⟨mem, pos, pc + 1, FF, inp⟩ =
              some (some (Output.Output v),
                ⟨mem, pos, pc + 1, FF, inp⟩) := by
            simp only [Instruction.execute, hv]
          rw [runTrace_emit ⟨mem, pos, pc, FF, inp⟩
            ⟨mem, pos, pc + 1, FF, inp⟩ f _ v hins hexecF,
            toSRes_consEmit] at hrun
          cases hr2 : (Interpreter.runTrace f
              ⟨mem, pos, pc + 1, FF, inp⟩).toSRes with
          | none => rw [hr2] at hrun; simp at hrun
          | some r2 =>
            rw [hr2] at hrun
            have hrq : SRes.consEmit v r2 = r := by simpa using hrun
            obtain ⟨M2, hM2⟩ := ih E FF mem pos (pc + 1) inp r2 hE hcnt
              hm255 hi255 hple hr2
            refine ⟨M2 + 1, ?_⟩
            have hgetU := expand_get?_single FF E hE pc Instruction.Output
              Instruction.Output hins rfl rfl
            have hexecU : Instruction.Output.execute
                ⟨mem, pos, offsetE E pc + 1,
                  FF.flatMap (expandRes (offsetE E)), inp⟩ =
                some (some (Output.Output v),
                  ⟨mem, pos, offsetE E pc + 1,
                    FF.flatMap (expandRes (offsetE E)), inp⟩) := by
              simp only [Instruction.execute, hv]
            rw [runTrace_emit ⟨mem, pos, offsetE E pc,
              FF.flatMap (expandRes (offsetE E)), inp⟩
              ⟨mem, pos, offsetE E pc + 1,
                FF.flatMap (expandRes (offsetE E)), inp⟩ M2 _ v hgetU hexecU,
              toSRes_consEmit]
            rw [← hoff, hM2]
            simp [hrq]
      | Input =>
        simp only [exLen] at hoff
        cases hlast : inp.getLast? with
        | some b =>
          cases hv : mem.get? pos with
          | none =>
            have hexecF : Instruction.Input.execute
                ⟨mem, pos, pc + 1, FF, inp⟩ = none := by
              simp only [Instruction.execute, hlast, hv]
            rw [runTrace_panicstep ⟨mem, pos, pc, FF, inp⟩ f _ hins hexecF]
              at hrun
            refine ⟨1, ?_⟩
            have hgetU := expand_get?_single FF E hE pc Instruction.Input
              Instruction.Input hins rfl rfl
            have hexecU : Instruction.Input.execute
                ⟨mem, pos, offsetE E pc + 1,
                  FF.flatMap (expandRes (offsetE E)), inp⟩ = none := by
              simp only [Instruction.execute, hlast, hv]
            rw [runTrace_panicstep ⟨mem, pos, offsetE E pc,
              FF.flatMap (expandRes (offsetE E)), inp⟩ 0 _ hgetU hexecU]
            exact hrun
          | some w =>
            have hb255 : b ≤ 255 := hi255 b (List.mem_of_mem_getLast? hlast)
            have hexecF : Instruction.Input.execute
                ⟨mem, pos, pc + 1, FF, inp⟩ =
                some (none,
                  ⟨mem.set pos b, pos, pc + 1, FF, inp.dropLast⟩) := by
              simp only [Instruction.execute, hlast, hv]
            rw [runTrace_silent ⟨mem, pos, pc, FF, inp⟩
              ⟨mem.set pos b, pos, pc + 1, FF, inp.dropLast⟩ f _ hins hexecF]
              at hrun
            obtain ⟨M2, hM2⟩ := ih E FF (mem.set pos b) pos (pc + 1)
              inp.dropLast r hE hcnt (memLe_set mem pos b hm255 hb255)
              (fun bb hbb => hi255 bb (List.Sublist.mem hbb
                (List.dropLast_sublist inp))) hple hrun
            refine ⟨M2 + 1, ?_⟩
            have hgetU := expand_get?_single FF E hE pc Instruction.Input
              Instruction.Input hins rfl rfl
            have hexecU : Instruction.Input.execute
                ⟨mem, pos, offsetE E pc + 1,
                  FF.flatMap (expandRes (offsetE E)), inp⟩ =
                some (none, ⟨mem.set pos b, pos, offsetE E pc + 1,
                  FF.flatMap (expandRes (offsetE E)), inp.dropLast⟩) := by
              simp only [Instruction.execute, hlast, hv]
            rw [runTrace_silent ⟨mem, pos, offsetE E pc,
              FF.flatMap (expandRes (offsetE E)), inp⟩
              ⟨mem.set pos b, pos, offsetE E pc + 1,
                FF.flatMap (expandRes (offsetE E)), inp.dropLast⟩ M2 _
              hgetU hexecU, ← hoff]
            exact hM2
        | none =>
          have hexecF : Instruction.Input.execute
              ⟨mem, pos, pc + 1, FF, inp⟩ =
              some (some Output.Input,
                ⟨mem, pos, pc + 1 - 1, FF, inp⟩) := by
            simp only [Instruction.execute, hlast]
          rw [runTrace_needs ⟨mem, pos, pc, FF, inp⟩
            ⟨mem, pos, pc + 1 - 1, FF, inp⟩ f _ hins hexecF] at hrun
          refine ⟨1, ?_⟩
          have hgetU := expand_get?_single FF E hE pc Instruction.Input
            Instruction.Input hins rfl rfl
          have hexecU : Instruction.Input.execute
              ⟨mem, pos, offsetE E pc + 1,
                FF.flatMap (expandRes (offsetE E)), inp⟩ =
              some (some Output.Input,
                ⟨mem, pos, offsetE E pc + 1 - 1,
                  FF.flatMap (expandRes (offsetE E)), inp⟩) := by
            simp only [Instruction.execute, hlast]
          rw [runTrace_needs ⟨mem, pos, offsetE E pc,
            FF.flatMap (expandRes (offsetE E)), inp⟩
            ⟨mem, pos, offsetE E pc + 1 - 1,
              FF.flatMap (expandRes (offsetE E)), inp⟩ 0 _ hgetU hexecU]
          exact hrun
      | Jump t =>
        simp only [exLen] at hoff
        cases hv : mem.get? pos with
        | none =>
          have hexecF : (Instruction.Jump t).execute
              ⟨mem, pos, pc + 1, FF, inp⟩ = none := by
            simp only [Instruction.execute, hv]
          rw [runTrace_panicstep ⟨mem, pos, pc, FF, inp⟩ f _ hins hexecF]
            at hrun
          refine ⟨1, ?_⟩
          have hgetU := expand_get?_single FF E hE pc (Instruction.Jump t)
            (Instruction.Jump (offsetE E t)) hins rfl rfl
          have hexecU : (Instruction.Jump (offsetE E t)).execute
              ⟨mem, pos, offsetE E pc + 1,
                FF.flatMap (expandRes (offsetE E)), inp⟩ = none := by
            simp only [Instruction.execute, hv]
          rw [runTrace_panicstep ⟨mem, pos, offsetE E pc,
            FF.flatMap (expandRes (offsetE E)), inp⟩ 0 _ hgetU hexecU]
          exact hrun
        | some v =>
          by_cases hz : v = 0
          · have hexecF : (Instruction.Jump t).execute
                ⟨mem, pos, pc + 1, FF, inp⟩ =
                some (none, ⟨mem, pos, t, FF, inp⟩) := by
              simp only [Instruction.execute, hv]
              rw [if_pos hz]
            rw [runTrace_silent ⟨mem, pos, pc, FF, inp⟩
              ⟨mem, pos, t, FF, inp⟩ f _ hins hexecF] at hrun
            obtain ⟨M2, hM2⟩ := ih E FF mem pos t inp r hE hcnt hm255 hi255
              hple hrun
            refine ⟨M2 + 1, ?_⟩
            have hgetU := expand_get?_single FF E hE pc (Instruction.Jump t)
              (Instruction.Jump (offsetE E t)) hins rfl rfl
            have hexecU : (Instruction.Jump (offsetE E t)).execute
                ⟨mem, pos, offsetE E pc + 1,
                  FF.flatMap (expandRes (offsetE E)), inp⟩ =
                some (none, ⟨mem, pos, offsetE E t,
                  FF.flatMap (expandRes (offsetE E)), inp⟩) := by
              simp only [Instruction.execute, hv]
              rw [if_pos hz]
            rw [runTrace_silent ⟨mem, pos, offsetE E pc,
              FF.flatMap (expandRes (offsetE E)), inp⟩
              ⟨mem, pos, offsetE E t,
                FF.flatMap (expandRes (offsetE E)), inp⟩ M2 _ hgetU hexecU]
            exact hM2
          · have hexecF : (Instruction.Jump t).execute
                ⟨mem, pos, pc + 1, FF, inp⟩ =
                some (none, ⟨mem, pos, pc + 1, FF, inp⟩) := by
              simp only [Instruction.execute, hv]
              rw [if_neg hz]
            rw [runTrace_silent ⟨mem, pos, pc, FF, inp⟩
              ⟨mem, pos, pc + 1, FF, inp⟩ f _ hins hexecF] at hrun
            obtain ⟨M2, hM2⟩ := ih E FF mem pos (pc + 1) inp r hE hcnt hm255
              hi255 hple hrun
            refine ⟨M2 + 1, ?_⟩
            have hgetU := expand_get?_single FF E hE pc (Instruction.Jump t)
              (Instruction.Jump (offsetE E t)) hins rfl rfl
            have hexecU : (Instruction.Jump (offsetE E t)).execute
                ⟨mem, pos, offsetE E pc + 1,
                  FF.flatMap (expandRes (offsetE E)), inp⟩ =
                some (none, ⟨mem, pos, offsetE E pc + 1,
                  FF.flatMap (expandRes (offsetE E)), inp⟩) := by
              simp only [Instruction.execute, hv]
              rw [if_neg hz]
            rw [runTrace_silent ⟨mem, pos, offsetE E pc,
              FF.flatMap (expandRes (offsetE E)), inp⟩
              ⟨mem, pos, offsetE E pc + 1,
                FF.flatMap (expandRes (offsetE E)), inp⟩ M2 _ hgetU hexecU,
              ← hoff]
            exact hM2
      | JumpBack t =>
        simp only [exLen] at hoff
        cases hv : mem.get? pos with
        | none =>
          have hexecF : (Instruction.JumpBack t).execute
              ⟨mem, pos, pc + 1, FF, inp⟩ = none := by
            simp only [Instruction.execute, hv]
          rw [runTrace_panicstep ⟨mem, pos, pc, FF, inp⟩ f _ hins hexecF]
            at hrun
          refine ⟨1, ?_⟩
          have hgetU := expand_get?_single FF E hE pc
            (Instruction.JumpBack t) (Instruction.JumpBack (offsetE E t))
            hins rfl rfl
          have hexecU : (Instruction.JumpBack (offsetE E t)).execute
              ⟨mem, pos, offsetE E pc + 1,
                FF.flatMap (expandRes (offsetE E)), inp⟩ = none := by
            simp only [Instruction.execute, hv]
          rw [runTrace_panicstep ⟨mem, pos, offsetE E pc,
            FF.flatMap (expandRes (offsetE E)), inp⟩ 0 _ hgetU hexecU]
          exact hrun
        | some v =>
          by_cases hz : v = 0
          · have hexecF : (Instruction.JumpBack t).execute
                ⟨mem, pos, pc + 1, FF, inp⟩ =
                some (none, ⟨mem, pos, pc + 1, FF, inp⟩) := by
              simp only [Instruction.execute, hv]
              rw [if_neg (fun hne => hne hz)]
            rw [runTrace_silent ⟨mem, pos, pc, FF, inp⟩
              ⟨mem, pos, pc + 1, FF, inp⟩ f _ hins hexecF] at hrun
            obtain ⟨M2, hM2⟩ := ih E FF mem pos (pc + 1) inp r hE hcnt hm255
              hi255 hple hrun
            refine ⟨M2 + 1, ?_⟩
            have hgetU := expand_get?_single FF E hE pc
              (Instruction.JumpBack t) (Instruction.JumpBack (offsetE E t))
              hins rfl rfl
            have hexecU : (Instruction.JumpBack (offsetE E t)).execute
                ⟨mem, pos, offsetE E pc + 1,
                  FF.flatMap (expandRes (offsetE E)), inp⟩ =
                some (none, ⟨mem, pos, offsetE E pc + 1,
                  FF.flatMap (expandRes (offsetE E)), inp⟩) := by
              simp only [Instruction.execute, hv]
              rw [if_neg (fun hne => hne hz)]
            rw [runTrace_silent ⟨mem, pos, offsetE E pc,
              FF.flatMap (expandRes (offsetE E)), inp⟩
              ⟨mem, pos, offsetE E pc + 1,
                FF.flatMap (expandRes (offsetE E)), inp⟩ M2 _ hgetU hexecU,
              ← hoff]
            exact hM2
          · have hexecF : (Instruction.JumpBack t).execute
                ⟨mem, pos, pc + 1, FF, inp⟩ =
                some (none, ⟨mem, pos, t, FF, inp⟩) := by
              simp only [Instruction.execute, hv]
              rw [if_pos hz]
            rw [runTrace_silent ⟨mem, pos, pc, FF, inp⟩
              ⟨mem, pos, t, FF, inp⟩ f _ hins hexecF] at hrun
            obtain ⟨M2, hM2⟩ := ih E FF mem pos t inp r hE hcnt hm255 hi255
              hple hrun
            refine ⟨M2 + 1, ?_⟩
            have hgetU := expand_get?_single FF E hE pc
              (Instruction.JumpBack t) (Instruction.JumpBack (offsetE E t))
              hins rfl rfl
            have hexecU : (Instruction.JumpBack (offsetE E t)).execute
                ⟨mem, pos, offsetE E pc + 1,
                  FF.flatMap (expandRes (offsetE E)), inp⟩ =
                some (none, ⟨mem, pos, offsetE E t,
                  FF.flatMap (expandRes (offsetE E)), inp⟩) := by
              simp only [Instruction.execute, hv]
              rw [if_pos hz]
            rw [runTrace_silent ⟨mem, pos, offsetE E pc,
              FF.flatMap (expandRes (offsetE E)), inp⟩
              ⟨mem, pos, offsetE E t,
                FF.flatMap (expandRes (offsetE E)), inp⟩ M2 _ hgetU hexecU]
            exact hM2

/-- Compile a source with with_str from the fresh interpreter, feed the
input, and drive the run with the given fuel. -/
def foldedRunN (src : List Char) (input : List Nat) (fuel : Nat) :
    Option RunResult :=
  match Interpreter.new.with_str src with
  | Except.ok s => some ((s.appendInput input).runTrace fuel)
  | Except.error _ => none

/-- Build the unfolded character-by-character program, resolve its jumps,
feed the input, and drive the run with the given fuel. -/
def unfoldedRunN (src : List Char) (input : List Nat) (fuel : Nat) :
    Option RunResult :=
  match unfoldedProgram src with
  | none => none
  | some U =>
    match Instruction.update_jumps U with
    | Except.error _ => none
    | Except.ok U2 =>
      some ((({ Interpreter.new with instructions := U2 }).appendInput
        input).runTrace fuel)

/-- C2 amended: run-length folding is not transparent in general (see the
counterexample), but it is transparent on every source, brackets included,
in which no two adjacent characters fold against each other (no plus next
to minus, no right angle next to left angle in either order) and no uniform
run of one arithmetic character reaches 256: for every such source, every
byte input, and every fuel under which the folded run completes (ends,
requests input, or panics), there is a fuel under which the unfolded
character-by-character run produces the identical observation, that is the
same emitted byte sequence, the same terminal status, and the same final
tape, cell pointer and remaining input. -/
theorem C2_fold_transparent (src : List Char) (input : List Nat) (N : Nat)
    (hinput : ∀ b ∈ input, b ≤ 255)
    (hop : noAdjOpp src = true)
    (hnr : ∀ c ∈ (['+', '-', '>', '<'] : List Char),
      ¬ (List.replicate 256 c <:+: src))
    (hterm : (runObs (foldedRunN src input N)).isSome = true) :
    ∃ M, runObs (unfoldedRunN src input M) =
      runObs (foldedRunN src input N) := by
  cases hc : compileLoop src.length src 0 with
  | error e =>
    have hws : Interpreter.new.with_str src = Except.error e := by
      unfold Interpreter.with_str
      rw [hc]
    have hnone : foldedRunN src input N = none := by
      unfold foldedRunN
      rw [hws]
    rw [hnone] at hterm
    simp [runObs] at hterm
  | ok F0 =>
    cases hj : Instruction.update_jumps F0 with
    | error e =>
      have hws : Interpreter.new.with_str src = Except.error (e, 0) := by
        rw [with_str_eq Interpreter.new src F0 hc, hj]
      have hnone : foldedRunN src input N = none := by
        unfold foldedRunN
        rw [hws]
      rw [hnone] at hterm
      simp [runObs] at hterm
    | ok FF =>
      have hws : Interpreter.new.with_str src =
          Except.ok { Interpreter.new with instructions := FF } := by
        rw [with_str_eq Interpreter.new src F0 hc, hj]
      have hfolded : foldedRunN src input N =
          some (Interpreter.runTrace N
            ({ Interpreter.new with
              instructions := FF }.appendInput input)) := by
        unfold foldedRunN
        rw [hws]
      obtain ⟨hU0, hcnt0⟩ := compile_expand src.length src 0 F0
        (noAdjOpp_chain' src hop) hnr hc
      have hz := compile_targets_zero src.length src 0 F0 hc
      obtain ⟨hFE, hUok⟩ := update_jumps_expand F0 FF hz hj
      rw [hfolded] at hterm
      have hterm2 : ((Interpreter.runTrace N
          ({ Interpreter.new with
            instructions := FF }.appendInput input)).toSRes).isSome =
          true := hterm
      cases hr : (Interpreter.runTrace N
          ({ Interpreter.new with
            instructions := FF }.appendInput input)).toSRes with
      | none => rw [hr] at hterm2; simp at hterm2
      | some r =>
        have hrun : (Interpreter.runTrace N
            ⟨List.replicate 30000 0, 0, 0, FF, input⟩).toSRes = some r := hr
        obtain ⟨M, hM⟩ := sim_trace N (F0.map exLen) FF
          (List.replicate 30000 0) 0 0 input r hFE.symm hcnt0
          (fun x hx => by rw [List.eq_of_mem_replicate hx]; omega)
          hinput (Nat.zero_le _) hrun
        have hunf : unfoldedRunN src input M =
            some (Interpreter.runTrace M
              ({ Interpreter.new with
                instructions := FF.flatMap (expandRes (offsetE (F0.map exLen))) }.appendInput
                input)) := by
          unfold unfoldedRunN
          simp only [hU0, hUok]
        refine ⟨M, ?_⟩
        rw [hunf, hfolded]
        simp only [runObs, Option.some_bind]
        rw [hr]
        have hM2 : (Interpreter.runTrace M
            ({ Interpreter.new with
              instructions := FF.flatMap (expandRes (offsetE (F0.map exLen))) }.appendInput
              input)).toSRes = some r := hM
        exact hM2

/-- Witness for C2 amended on a concrete bracketed source: plus, open
bracket, minus, close bracket, dot, with empty input. -/
theorem C2_fold_transparent_witness :
    ∃ M, runObs (unfoldedRunN ['+', '[', '-', ']', '.'] [] M) =
      runObs (foldedRunN ['+', '[', '-', ']', '.'] [] 6) :=
  C2_fold_transparent ['+', '[', '-', ']', '.'] [] 6
    (by decide) (by decide)
    (by
      intro c _ hinf
      have hlen := List.IsInfix.length_le hinf
      rw [List.length_replicate] at hlen
      simp only [List.length_cons, List.length_nil] at hlen
      omega)
    (by decide)
